import Mathlib

/-!
# Verification of the quiz-app attempt-submission and leaderboard engine

Shallow embedding of the core of the `quiz-app` Go repository:

* `internal/quiz/questions.go`    — letter normalization and answer evaluation
* `internal/quiz/sqlite_store.go` — the durable store (`CreateQuiz`,
  `SubmitResponses`, `GetLeaderboard`, `GetAttemptScores`)
* `internal/quiz/service.go`      — the caching orchestrator (`EnsureQuiz`,
  `GetQuizQuestions`, `SubmitResponses`, `GetLeaderboard`, `GetAttemptScores`,
  the incremental leaderboard repair `updateCachedLeaderboardAfterSubmission`
  with `bubbleLeaderboard`, and `normalizeUsername`).

Modelling conventions:

* SQL tables become lists of row structures; the `attempts` primary key
  `(quiz_id, question_id, username_norm)` is enforced by the insert-if-absent
  logic itself, exactly as in the Go code (`INSERT OR IGNORE`).
* Scores are stored in a `REAL` column but the code only ever writes 0.0 or
  1.0 and adds such values, which is exact in IEEE float64; we model scores
  as `Int`, which has the same ordered-field-free behaviour on all reachable
  values.
* Timestamps (`UnixNano`) are modelled as `Nat`.
* Go string comparison (`<` on strings, and SQLite BINARY collation) is
  byte-wise lexicographic; for UTF-8 this coincides with code-point
  lexicographic order, modelled by `strLt` below.
* Go maps are modelled as association lists (`alookup` / `aset`); where the
  code relies on key uniqueness the surrounding constraints guarantee it.
* `time.Now()` becomes an explicit timestamp parameter.
-/

deriving instance DecidableEq for Except

namespace QuizApp

/-! ## Strings: Go byte-wise comparison, trimming, case mapping -/

/-- Byte-wise (= code-point-wise) strict lexicographic order on char lists,
as used by Go `<` on strings and by SQLite BINARY collation. -/
def strLtB : List Char → List Char → Bool
  | [], [] => false
  | [], _ :: _ => true
  | _ :: _, [] => false
  | a :: as, b :: bs =>
    if a.toNat < b.toNat then true
    else if b.toNat < a.toNat then false
    else strLtB as bs

/-- Go `s1 < s2` on strings. -/
def strLt (a b : String) : Bool := strLtB a.data b.data

/-- The Unicode white-space class used by Go `strings.TrimSpace`
(`unicode.IsSpace`). -/
def isGoSpace (c : Char) : Bool :=
  c == ' ' || c == '\t' || c == '\n' || c.toNat == 0x0B || c.toNat == 0x0C ||
  c == '\r' || c.toNat == 0x85 || c.toNat == 0xA0 || c.toNat == 0x1680 ||
  (0x2000 ≤ c.toNat && c.toNat ≤ 0x200A) || c.toNat == 0x2028 ||
  c.toNat == 0x2029 || c.toNat == 0x202F || c.toNat == 0x205F ||
  c.toNat == 0x3000

/-- Go `strings.TrimSpace`: drop leading and trailing white space. -/
def trimSpace (s : List Char) : List Char :=
  ((s.dropWhile isGoSpace).reverse.dropWhile isGoSpace).reverse

/-- ASCII upper-casing of a char, as Go `strings.ToUpper` acts on the ASCII
range (the only range relevant to single-byte letters). -/
def upChar (c : Char) : Char :=
  if 'a' ≤ c ∧ c ≤ 'z' then Char.ofNat (c.toNat - 32) else c

/-- ASCII lower-casing of a char, as Go `strings.ToLower` acts on ASCII. -/
def downChar (c : Char) : Char :=
  if 'A' ≤ c ∧ c ≤ 'Z' then Char.ofNat (c.toNat + 32) else c

/-! ## questions.go: letter normalization and statuses -/

/-- The five per-response statuses of `questions.go`. -/
inductive Status where
  | correct
  | incorrect
  | invalidQuestion
  | invalidLetter
  | alreadyAnswered
deriving DecidableEq, Repr

/-- `normalizeLetter` (questions.go:175-181): upper-case the trimmed answer
and accept exactly the strings of byte length 1 (`len(letter) != 1` in Go is
a byte count, so a single non-ASCII char is also rejected). Returns the
single char on success. -/
def normalizeLetter (answer : String) : Option Char :=
  match (trimSpace answer.data).map upChar with
  | [c] => if c.toNat < 128 then some c else none
  | _ => none

/-- `int(letter[0] - 'A')` in Go: unsigned-byte subtraction, then widening.
The byte of the normalized letter is `c.toNat` (a single-byte char). -/
def letterIndex (c : Char) : ℕ := (c.toNat + 256 - 65) % 256

/-! ## Durable store: data model (sqlite_store.go schema) -/

/-- A row of the `quizzes` table (the unused `locked` column is omitted). -/
structure QuizRow where
  quizId : String
  createdAtUnix : ℕ
  questionCount : ℤ
deriving DecidableEq, Repr

/-- One answer option (letter label + text). -/
structure OptionItem where
  letter : String
  text : String
deriving DecidableEq, Repr

/-- A row of the `questions` table (`source` column omitted; `options_json`
kept as the structured option list). -/
structure QuestionRow where
  questionId : String
  prompt : String
  options : List OptionItem
  correctIndex : ℤ
  optionCount : ℕ
  createdAtUnix : ℕ
deriving DecidableEq, Repr

/-- A row of the `quiz_questions` join table. -/
structure QuizQuestionRow where
  quizId : String
  questionId : String
  position : ℕ
deriving DecidableEq, Repr

/-- A row of the `attempts` table. -/
structure Attempt where
  quizId : String
  questionId : String
  usernameNorm : String
  answerLetter : String
  score : ℤ
  submittedAtUnix : ℕ
deriving DecidableEq, Repr

/-- The SQLite database state. -/
structure DB where
  quizzes : List QuizRow
  questions : List QuestionRow
  quizQuestions : List QuizQuestionRow
  attempts : List Attempt
deriving DecidableEq, Repr

/-- Quiz metadata as exposed by the store and cached by the service. -/
structure QuizMetadata where
  quizId : String
  questionCount : ℤ
  createdAtUnix : ℕ
deriving DecidableEq, Repr

/-- The service-level question record (`Question` in questions.go, with its
embedded `PublicQuestion`). -/
structure Question where
  questionId : String
  question : String
  options : List OptionItem
  correctIndex : ℤ
deriving DecidableEq, Repr

/-- A submitted answer for one question. -/
structure SubmittedResponse where
  questionId : String
  answer : String
deriving DecidableEq, Repr

/-- The per-question submission result (`ResponseResult`). -/
structure ResponseResult where
  questionId : String
  status : Status
  attemptScore : Option ℤ
deriving DecidableEq, Repr

/-- A leaderboard row (`LeaderboardEntry`). -/
structure LeaderboardEntry where
  username : String
  totalScore : ℤ
  answeredCount : ℕ
  lastSubmissionAt : ℕ
deriving DecidableEq, Repr

/-- Call-level error kinds of the store and service. -/
inductive StoreErr where
  | quizNotFound
  | invalidUsername
  | storage
  | noFetcher
deriving DecidableEq, Repr

/-! ## Association-list helpers for Go maps -/

/-- Go map read `m[k]`. -/
def alookup {β : Type} (k : String) (l : List (String × β)) : Option β :=
  (l.find? (fun p => p.1 == k)).map (·.2)

/-- Go map write `m[k] = v` (replace an existing binding or append). -/
def aset {β : Type} (k : String) (v : β) (l : List (String × β)) :
    List (String × β) :=
  if (l.find? (fun p => p.1 == k)).isSome then
    l.map (fun p => if p.1 == k then (k, v) else p)
  else l ++ [(k, v)]

/-! ## Durable store operations (sqlite_store.go) -/

/-- `GetQuizMetadata` (sqlite_store.go:182-199): `SELECT ... FROM quizzes
WHERE quiz_id = ?`; no row means `ErrQuizNotFound`. -/
def getQuizMetadata (db : DB) (quizId : String) : Except StoreErr QuizMetadata :=
  match db.quizzes.find? (fun r => r.quizId == quizId) with
  | some row => .ok ⟨row.quizId, row.questionCount, row.createdAtUnix⟩
  | none => .error .quizNotFound

/-- `QuizExists` (sqlite_store.go:201-215). -/
def quizExists (db : DB) (quizId : String) : Bool :=
  (db.quizzes.find? (fun r => r.quizId == quizId)).isSome

/-- The `question_id -> (correct_index, option_count)` pair loaded by the
submission transaction. -/
structure AnswerKey where
  correctIndex : ℤ
  optionCount : ℕ
deriving DecidableEq, Repr

/-- The join `quiz_questions JOIN questions` restricted to one quiz, as read
by `SubmitResponses` (sqlite_store.go:335-367). Each join row yields the
question's `(correct_index, option_count)`. The Go code stores these in a
map keyed by `question_id`; the `UNIQUE (quiz_id, question_id)` constraint
and the `question_id` primary key make the keys unique, so an association
list is an exact model. -/
def quizAnswerKeys (db : DB) (quizId : String) : List (String × AnswerKey) :=
  (db.quizQuestions.filter (fun r => r.quizId == quizId)).filterMap
    (fun qq =>
      (db.questions.find? (fun q => q.questionId == qq.questionId)).map
        (fun q => (qq.questionId, AnswerKey.mk q.correctIndex q.optionCount)))

/-- The evaluation outcome of one submitted answer against one question, as
computed inline by `SubmitResponses` (sqlite_store.go:384-407): normalized
letter, status and score, or an invalid letter. -/
inductive EvalOutcome where
  | invalidLetter
  | graded (letter : Char) (status : Status) (score : ℤ)
deriving DecidableEq, Repr

/-- The inline scoring logic of `SubmitResponses` (sqlite_store.go:384-407):
normalize the letter, reject when out of range for the option count, else
grade against `correct_index`. `answerIndex < 0` in the Go code never fires
because the subtraction is on an unsigned byte; `letterIndex` models that
byte arithmetic. -/
def evaluateAnswer (key : AnswerKey) (answer : String) : EvalOutcome :=
  match normalizeLetter answer with
  | none => .invalidLetter
  | some c =>
    if key.optionCount ≤ letterIndex c then .invalidLetter
    else if (letterIndex c : ℤ) = key.correctIndex then .graded c .correct 1
    else .graded c .incorrect 0

/-- Status-only view of `evaluateAnswer`. -/
def evalStatus (key : AnswerKey) (answer : String) : Status :=
  match evaluateAnswer key answer with
  | .invalidLetter => .invalidLetter
  | .graded _ s _ => s

/-- The row the `INSERT OR IGNORE` primary key `(quiz_id, question_id,
username_norm)` would collide with, if any. -/
def findAttempt (attempts : List Attempt) (quizId questionId usernameNorm : String) :
    Option Attempt :=
  attempts.find? (fun a =>
    a.quizId == quizId && a.questionId == questionId &&
      a.usernameNorm == usernameNorm)

/-- One iteration of the response loop of `SubmitResponses`
(sqlite_store.go:374-454), threading the accumulated results and the
transaction's view of the `attempts` table. -/
def submitStep (quizId usernameNorm : String) (t : ℕ)
    (keys : List (String × AnswerKey))
    (acc : List ResponseResult × List Attempt) (resp : SubmittedResponse) :
    List ResponseResult × List Attempt :=
  match alookup resp.questionId keys with
  | none => (acc.1 ++ [⟨resp.questionId, .invalidQuestion, none⟩], acc.2)
  | some key =>
    match evaluateAnswer key resp.answer with
    | .invalidLetter => (acc.1 ++ [⟨resp.questionId, .invalidLetter, none⟩], acc.2)
    | .graded letter status score =>
      match findAttempt acc.2 quizId resp.questionId usernameNorm with
      | some existing =>
        (acc.1 ++ [⟨resp.questionId, .alreadyAnswered, some existing.score⟩], acc.2)
      | none =>
        (acc.1 ++ [⟨resp.questionId, status, none⟩],
         acc.2 ++ [⟨quizId, resp.questionId, usernameNorm,
                    String.mk [letter], score, t⟩])

/-- `SubmitResponses` (sqlite_store.go:328-461): one transaction. Load the
quiz's answer keys; an empty map fails the whole call with quiz-not-found;
otherwise each response independently produces a result and possibly an
inserted attempt row, and the transaction commits. `t` is the call's
`time.Now()` timestamp (shared by the rows of one call). -/
def submitResponses (db : DB) (quizId usernameNorm : String)
    (responses : List SubmittedResponse) (t : ℕ) :
    Except StoreErr (List ResponseResult × DB) :=
  let keys := quizAnswerKeys db quizId
  if keys.isEmpty then .error .quizNotFound
  else
    let r := responses.foldl (submitStep quizId usernameNorm t keys) ([], db.attempts)
    .ok (r.1, { db with attempts := r.2 })

/-! ### Fallible submission (storage failures and rollback)

`SubmitResponses` opens a transaction with `defer tx.Rollback()` and commits
last; any storage error at any step (begin, the question query, an insert,
the duplicate-score read-back, the commit) aborts the call and rolls the
transaction back. We model an adversarial storage layer by a failure oracle
`fail : ℕ → Bool` consulted at every database operation, numbered in
execution order. The function returns the database visible after the call:
on any error that is the original database (rollback). -/

/-- The response loop with a failure oracle. State: step counter, results,
transaction-local attempts. Step numbers are consumed by the insert and, on
a duplicate, the score read-back — the fallible operations inside the loop. -/
def submitLoopF (fail : ℕ → Bool) (quizId usernameNorm : String) (t : ℕ)
    (keys : List (String × AnswerKey)) :
    List SubmittedResponse → ℕ → List ResponseResult → List Attempt →
    Except StoreErr (List ResponseResult × List Attempt × ℕ)
  | [], n, results, attempts => .ok (results, attempts, n)
  | resp :: rest, n, results, attempts =>
    match alookup resp.questionId keys with
    | none =>
      submitLoopF fail quizId usernameNorm t keys rest n
        (results ++ [⟨resp.questionId, .invalidQuestion, none⟩]) attempts
    | some key =>
      match evaluateAnswer key resp.answer with
      | .invalidLetter =>
        submitLoopF fail quizId usernameNorm t keys rest n
          (results ++ [⟨resp.questionId, .invalidLetter, none⟩]) attempts
      | .graded letter status score =>
        if fail n then .error .storage
        else
          match findAttempt attempts quizId resp.questionId usernameNorm with
          | some existing =>
            if fail (n + 1) then .error .storage
            else
              submitLoopF fail quizId usernameNorm t keys rest (n + 2)
                (results ++ [⟨resp.questionId, .alreadyAnswered, some existing.score⟩])
                attempts
          | none =>
            submitLoopF fail quizId usernameNorm t keys rest (n + 1)
              (results ++ [⟨resp.questionId, status, none⟩])
              (attempts ++ [⟨quizId, resp.questionId, usernameNorm,
                             String.mk [letter], score, t⟩])

/-- `SubmitResponses` under the failure oracle. Step 0 is `BeginTx`, step 1
the question-lookup query, then the loop, and the last step is `Commit`.
The returned `DB` is the state visible to later reads: every error path
returns the original database because the deferred `tx.Rollback()` discards
the transaction. -/
def submitResponsesF (fail : ℕ → Bool) (db : DB) (quizId usernameNorm : String)
    (responses : List SubmittedResponse) (t : ℕ) :
    Except StoreErr (List ResponseResult) × DB :=
  if fail 0 then (.error .storage, db)
  else if fail 1 then (.error .storage, db)
  else
    let keys := quizAnswerKeys db quizId
    if keys.isEmpty then (.error .quizNotFound, db)
    else
      match submitLoopF fail quizId usernameNorm t keys responses 2 [] db.attempts with
      | .error e => (.error e, db)
      | .ok (results, attempts, n) =>
        if fail n then (.error .storage, db)
        else (.ok results, { db with attempts := attempts })

/-! ### Leaderboard aggregation (sqlite_store.go:463-505) -/

/-- The user's attempt rows for one quiz (the `GROUP BY username_norm` group
of the `WHERE quiz_id = ?` rows). -/
def userAttempts (attempts : List Attempt) (quizId usernameNorm : String) :
    List Attempt :=
  attempts.filter (fun a => a.quizId == quizId && a.usernameNorm == usernameNorm)

/-- The distinct normalized usernames appearing among a quiz's attempts. -/
def usersOf (attempts : List Attempt) (quizId : String) : List String :=
  ((attempts.filter (fun a => a.quizId == quizId)).map (fun a => a.usernameNorm)).dedup

/-- One aggregated leaderboard row: `SUM(score)`, `COUNT(*)`,
`MAX(submitted_at_unix)` over the user's group. Timestamps are nonnegative,
so folding `max` from 0 computes the SQL `MAX` of a nonempty group. -/
def entryFor (attempts : List Attempt) (quizId usernameNorm : String) :
    LeaderboardEntry :=
  let rows := userAttempts attempts quizId usernameNorm
  { username := usernameNorm
    totalScore := (rows.map (fun a => a.score)).sum
    answeredCount := rows.length
    lastSubmissionAt := (rows.map (fun a => a.submittedAtUnix)).foldl max 0 }

/-- All aggregated rows of a quiz, one per distinct username. -/
def aggregateEntries (attempts : List Attempt) (quizId : String) :
    List LeaderboardEntry :=
  (usersOf attempts quizId).map (entryFor attempts quizId)

/-- The `ORDER BY total_score DESC, last_submission ASC, username_norm ASC`
comparison, as a (total) non-strict order used to sort the aggregated rows.
Usernames are pairwise distinct after `GROUP BY username_norm`, and the
username is the last sort key, so the sorted order is unique — any sorting
algorithm models the SQL `ORDER BY`. -/
def sqlLE (a b : LeaderboardEntry) : Prop :=
  a.totalScore > b.totalScore ∨
    (a.totalScore = b.totalScore ∧
      (a.lastSubmissionAt < b.lastSubmissionAt ∨
        (a.lastSubmissionAt = b.lastSubmissionAt ∧
          (strLt a.username b.username = true ∨ a.username = b.username))))

instance : DecidableRel sqlLE := fun a b => by
  unfold sqlLE; infer_instance

/-- `GetLeaderboard` (sqlite_store.go:463-505): quiz-not-found when the quiz
row is absent, else the aggregated rows in the `ORDER BY` order. -/
def getLeaderboard (db : DB) (quizId : String) :
    Except StoreErr (List LeaderboardEntry) :=
  if quizExists db quizId then
    .ok (List.insertionSort sqlLE (aggregateEntries db.attempts quizId))
  else .error .quizNotFound

/-- `GetAttemptScores` (sqlite_store.go:507-534): the user's
`question_id -> score` map for a quiz. Keys are unique by the attempts
primary key, so an association list models the Go map exactly. -/
def getAttemptScores (db : DB) (quizId usernameNorm : String) :
    List (String × ℤ) :=
  (userAttempts db.attempts quizId usernameNorm).map (fun a => (a.questionId, a.score))

/-! ### CreateQuiz (sqlite_store.go:98-180) -/

/-- The content key hashed by `makeQuestionID` (questions.go:163-173):
prompt and option texts joined by pipes. The real id is `"q_" ++ hex(sha1)`
of this key; the model keeps the key itself, preserving determinism and
content-sensitivity (collision behaviour of SHA-1 is not modelled). -/
def makeQuestionID (q : Question) : String :=
  "q_" ++ q.question ++ String.join (q.options.map (fun o => "|" ++ o.text))

/-- Upsert of a `quizzes` row (`INSERT OR REPLACE`). -/
def upsertQuizRow (rows : List QuizRow) (row : QuizRow) : List QuizRow :=
  if (rows.find? (fun r => r.quizId == row.quizId)).isSome then
    rows.map (fun r => if r.quizId == row.quizId then row else r)
  else rows ++ [row]

/-- Upsert of a `questions` row (`INSERT ... ON CONFLICT(question_id) DO
UPDATE`; the stored `created_at_unix` is kept on conflict). -/
def upsertQuestionRow (rows : List QuestionRow) (row : QuestionRow) :
    List QuestionRow :=
  match rows.find? (fun r => r.questionId == row.questionId) with
  | some old =>
    rows.map (fun r =>
      if r.questionId == row.questionId then { row with createdAtUnix := old.createdAtUnix } else r)
  | none => rows ++ [row]

/-- The question-insertion loop of `CreateQuiz` (sqlite_store.go:135-177):
each question is upserted into `questions` and a `(quiz_id, question_id,
position)` row inserted into `quiz_questions`. A duplicate question id
within the created quiz violates `UNIQUE (quiz_id, question_id)` and fails
the transaction. Positions are the distinct loop indices, so the
`(quiz_id, position)` primary key cannot conflict. -/
def createQuizLoop (quizId : String) (createdAt : ℕ) :
    List (ℕ × Question) → List QuestionRow → List QuizQuestionRow →
    Except StoreErr (List QuestionRow × List QuizQuestionRow)
  | [], qs, qqs => .ok (qs, qqs)
  | (idx, question) :: rest, qs, qqs =>
    let qid := if question.questionId = "" then makeQuestionID question
               else question.questionId
    if (qqs.find? (fun r => r.quizId == quizId && r.questionId == qid)).isSome then
      .error .storage
    else
      createQuizLoop quizId createdAt rest
        (upsertQuestionRow qs
          ⟨qid, question.question, question.options, question.correctIndex,
           question.options.length, createdAt⟩)
        (qqs ++ [⟨quizId, qid, idx⟩])

/-- `CreateQuiz` (sqlite_store.go:98-180): reject an empty quiz id; default
the question count and creation time; then, in one transaction, delete the
quiz's `quiz_questions` and `attempts` rows, upsert the `quizzes` row and
insert the new question set. On any error the transaction rolls back and
the database is unchanged. -/
def createQuiz (db : DB) (metadata : QuizMetadata) (questions : List Question)
    (now : ℕ) : Except StoreErr DB :=
  if metadata.quizId = "" then .error .storage
  else
    let qc := if metadata.questionCount ≤ 0 then (questions.length : ℤ)
              else metadata.questionCount
    let createdAt := if metadata.createdAtUnix = 0 then now else metadata.createdAtUnix
    let qq0 := db.quizQuestions.filter (fun r => !(r.quizId == metadata.quizId))
    let at0 := db.attempts.filter (fun a => !(a.quizId == metadata.quizId))
    let quizzes1 := upsertQuizRow db.quizzes ⟨metadata.quizId, createdAt, qc⟩
    match createQuizLoop metadata.quizId createdAt questions.enum db.questions qq0 with
    | .error e => .error e
    | .ok (qs1, qq1) =>
      .ok { quizzes := quizzes1, questions := qs1, quizQuestions := qq1,
            attempts := at0 }

/-- `GetQuizQuestions` (sqlite_store.go:217-274): the quiz's questions in
`ORDER BY position ASC` order; an empty result for an absent quiz row is
quiz-not-found. Positions are unique per quiz, so sorting by position models
the SQL ordering. -/
def getQuizQuestionRows (db : DB) (quizId : String) :
    Except StoreErr (List Question) :=
  let rows := (db.quizQuestions.filter (fun r => r.quizId == quizId))
  let sorted := List.insertionSort (fun a b => a.position ≤ b.position) rows
  let questions := sorted.filterMap (fun qq =>
    (db.questions.find? (fun q => q.questionId == qq.questionId)).map
      (fun q => Question.mk q.questionId q.prompt q.options q.correctIndex))
  if questions.isEmpty ∧ ¬ quizExists db quizId then .error .quizNotFound
  else .ok questions

/-! ## Service cache and orchestrator (service.go)

The service holds four process-local caches next to the durable store. The
`leaderboardCache` of the source is a pair of the ordered entry list and a
`username -> index` map; the map is created from the list positions and is
updated in lockstep at every swap, so it always equals the positional index
of the username in the ordered list — the model keeps the ordered list and
looks positions up with `findIdx?`.

Every operation also reports how many calls it made to each durable-store
method, so cache-hit contracts are statable. -/

/-- Full orchestrator state: the durable store plus the four caches. -/
structure SState where
  db : DB
  quizMetaCache : List (String × QuizMetadata)
  quizQuestionsCache : List (String × List Question)
  leaderboardCache : List (String × List LeaderboardEntry)
  attemptScoresCache : List (String × List (String × ℤ))
deriving Repr

/-- Store-call counters of one service operation. -/
structure Counts where
  metaReads : ℕ
  questionReads : ℕ
  leaderboardReads : ℕ
  attemptScoreReads : ℕ
  submits : ℕ
  creates : ℕ
  fetches : ℕ
deriving DecidableEq, Repr

def Counts.zero : Counts := ⟨0, 0, 0, 0, 0, 0, 0⟩

def Counts.add (a b : Counts) : Counts :=
  ⟨a.metaReads + b.metaReads, a.questionReads + b.questionReads,
   a.leaderboardReads + b.leaderboardReads,
   a.attemptScoreReads + b.attemptScoreReads, a.submits + b.submits,
   a.creates + b.creates, a.fetches + b.fetches⟩

/-- Total number of durable-store reads of one operation (every store call
that is not a write). -/
def Counts.reads (c : Counts) : ℕ :=
  c.metaReads + c.questionReads + c.leaderboardReads + c.attemptScoreReads

/-- `normalizeUsername` (service.go:258-264): trim, lower-case, reject the
empty result. -/
def normalizeUsername (username : String) : Except StoreErr String :=
  let normalized := String.mk ((trimSpace username.data).map downChar)
  if normalized = "" then .error .invalidUsername else .ok normalized

/-- `attemptScoresCacheKey` (service.go:670-672). -/
def attemptScoresCacheKey (quizId usernameNormalized : String) : String :=
  quizId ++ "::" ++ usernameNormalized

/-- `leaderboardBefore` (service.go:692-700): the cache's ranking
comparator. -/
def leaderboardBefore (a b : LeaderboardEntry) : Bool :=
  if a.totalScore ≠ b.totalScore then decide (a.totalScore > b.totalScore)
  else if a.lastSubmissionAt ≠ b.lastSubmissionAt then
    decide (a.lastSubmissionAt < b.lastSubmissionAt)
  else strLt a.username b.username

/-- `applyLeaderboardLimit` (service.go:702-707). -/
def applyLeaderboardLimit (entries : List LeaderboardEntry) (limit : ℤ) :
    List LeaderboardEntry :=
  if limit ≤ 0 ∨ (entries.length : ℤ) ≤ limit then entries
  else entries.take limit.toNat

/-- Swap of two positions of the cached ordered list
(`swapLeaderboardEntries`, service.go:686-690; the index map is positional
and follows the swap). -/
def swapIdx {α : Type} (l : List α) (i j : ℕ) : List α :=
  match l.get? i, l.get? j with
  | some a, some b => (l.set i b).set j a
  | _, _ => l

/-- The first loop of `bubbleLeaderboard` (service.go:674-678): walk the
changed entry toward the front while it ranks strictly before its
predecessor. Returns the list and the entry's final index. -/
def bubbleUp : List LeaderboardEntry → ℕ → List LeaderboardEntry × ℕ
  | l, 0 => (l, 0)
  | l, i + 1 =>
    match l.get? i, l.get? (i + 1) with
    | some prev, some cur =>
      if leaderboardBefore cur prev then bubbleUp (swapIdx l i (i + 1)) i
      else (l, i + 1)
    | _, _ => (l, i + 1)

/-- The second loop of `bubbleLeaderboard` (service.go:680-683), with the
list length as fuel (each iteration moves the index up by one, so the fuel
never runs out before the loop condition fails). -/
def bubbleDownAux : ℕ → List LeaderboardEntry → ℕ → List LeaderboardEntry
  | 0, l, _ => l
  | fuel + 1, l, i =>
    match l.get? i, l.get? (i + 1) with
    | some cur, some nxt =>
      if leaderboardBefore nxt cur then bubbleDownAux fuel (swapIdx l i (i + 1)) (i + 1)
      else l
    | _, _ => l

def bubbleDown (l : List LeaderboardEntry) (i : ℕ) : List LeaderboardEntry :=
  bubbleDownAux l.length l i

/-- `bubbleLeaderboard` (service.go:674-684): both walks. -/
def bubbleLeaderboard (l : List LeaderboardEntry) (idx : ℕ) :
    List LeaderboardEntry :=
  let r := bubbleUp l idx
  bubbleDown r.1 r.2

/-- `newAnswers` of `updateCachedLeaderboardAfterSubmission`
(service.go:634-644): results that recorded a new attempt. -/
def newAnswersOf (results : List ResponseResult) : ℕ :=
  results.countP (fun r => r.status == .correct || r.status == .incorrect)

/-- `scoreDelta` of the same loop: 1.0 per `correct` result. -/
def scoreDeltaOf (results : List ResponseResult) : ℤ :=
  (results.countP (fun r => r.status == .correct) : ℤ)

/-- `updateCachedLeaderboardAfterSubmission` (service.go:628-668) acting on
one quiz's materialized ordered list: skip when nothing new was recorded,
append a fresh entry or patch the user's entry in place, then restore order
by local bubbling. -/
def updateCachedLeaderboardEntries (cache : List LeaderboardEntry)
    (username : String) (results : List ResponseResult) (now : ℕ) :
    List LeaderboardEntry :=
  let newAnswers := newAnswersOf results
  if newAnswers = 0 then cache
  else
    match cache.findIdx? (fun e => e.username == username) with
    | none =>
      bubbleLeaderboard
        (cache ++ [⟨username, scoreDeltaOf results, newAnswers, now⟩])
        cache.length
    | some idx =>
      match cache.get? idx with
      | some e =>
        bubbleLeaderboard
          (cache.set idx
            { e with totalScore := e.totalScore + scoreDeltaOf results,
                     answeredCount := e.answeredCount + newAnswers,
                     lastSubmissionAt := now })
          idx
      | none => cache

/-- The cache-map level of `updateCachedLeaderboardAfterSubmission`: only an
already-materialized quiz entry is patched. -/
def serviceUpdateLeaderboard (st : SState) (quizId username : String)
    (results : List ResponseResult) (now : ℕ) : SState :=
  match alookup quizId st.leaderboardCache with
  | none => st
  | some entries =>
    { st with
      leaderboardCache :=
        aset quizId (updateCachedLeaderboardEntries entries username results now)
          st.leaderboardCache }

/-- `updateCachedAttemptScoresAfterSubmission` (service.go:608-626): patch
the per-(quiz,user) score map in place when it exists; `correct` writes 1,
`incorrect` writes 0, `already_answered` writes the attached persisted
score. -/
def patchAttemptScores (scores : List (String × ℤ))
    (results : List ResponseResult) : List (String × ℤ) :=
  results.foldl
    (fun sc r =>
      match r.status with
      | .correct => aset r.questionId 1 sc
      | .incorrect => aset r.questionId 0 sc
      | .alreadyAnswered =>
        match r.attemptScore with
        | some s => aset r.questionId s sc
        | none => sc
      | _ => sc)
    scores

def serviceUpdateAttemptScores (st : SState) (quizId usernameNormalized : String)
    (results : List ResponseResult) : SState :=
  match alookup (attemptScoresCacheKey quizId usernameNormalized) st.attemptScoresCache with
  | none => st
  | some scores =>
    { st with
      attemptScoresCache :=
        aset (attemptScoresCacheKey quizId usernameNormalized)
          (patchAttemptScores scores results) st.attemptScoresCache }

/-- The orchestrator's question fetcher composed with `BuildQuestions`
(service.go:232-237). The provider call and the random option shuffle of
`buildQuestion` are outside the shallow embedding; the fetcher is an
abstract function from the requested amount to the built (unshuffled)
questions or a fetch failure, and `BuildQuestions`' content-derived id
assignment is applied to its output. -/
def buildQuestions (raw : List Question) : List Question :=
  raw.map (fun q => { q with questionId := makeQuestionID q })

/-- `createQuizWithID` (service.go:214-256): serve from cache or store when
the quiz already exists, else fetch questions, build the quiz and persist
it; a create conflict falls back to reading the winner's metadata. `now` is
the call's `time.Now()`. -/
def createQuizWithID (fetcher : Option (ℤ → Except StoreErr (List Question)))
    (st : SState) (quizId : String) (questionCount : ℤ) (now : ℕ) :
    Except StoreErr QuizMetadata × SState × Counts :=
  match fetcher with
  | none => (.error .noFetcher, st, Counts.zero)
  | some fetch =>
    match alookup quizId st.quizMetaCache with
    | some metadata => (.ok metadata, st, Counts.zero)
    | none =>
      match getQuizMetadata st.db quizId with
      | .ok existing =>
        (.ok existing,
         { st with quizMetaCache := aset existing.quizId existing st.quizMetaCache },
         ⟨1, 0, 0, 0, 0, 0, 0⟩)
      | .error e =>
        if e ≠ .quizNotFound then (.error e, st, ⟨1, 0, 0, 0, 0, 0, 0⟩)
        else
          match fetch questionCount with
          | .error e => (.error e, st, ⟨1, 0, 0, 0, 0, 0, 1⟩)
          | .ok raw =>
            let questions := buildQuestions raw
            let metadata : QuizMetadata := ⟨quizId, (questions.length : ℤ), now⟩
            match createQuiz st.db metadata questions now with
            | .error e =>
              match getQuizMetadata st.db quizId with
              | .ok existing =>
                (.ok existing,
                 { st with
                   quizMetaCache := aset existing.quizId existing st.quizMetaCache },
                 ⟨2, 0, 0, 0, 0, 1, 1⟩)
              | .error _ => (.error e, st, ⟨2, 0, 0, 0, 0, 1, 1⟩)
            | .ok db1 =>
              (.ok metadata,
               { st with
                 db := db1,
                 quizMetaCache := aset metadata.quizId metadata st.quizMetaCache,
                 quizQuestionsCache :=
                   aset metadata.quizId questions st.quizQuestionsCache },
               ⟨1, 0, 0, 0, 0, 1, 1⟩)

/-- `EnsureQuiz` (service.go:51-74): trim the quiz id, reject an
empty/whitespace id with quiz-not-found, serve metadata from cache or
store, and optionally create the quiz when missing. -/
def ensureQuiz (fetcher : Option (ℤ → Except StoreErr (List Question)))
    (st : SState) (quizId : String) (createIfMissing : Bool)
    (questionCount : ℤ) (now : ℕ) :
    Except StoreErr QuizMetadata × SState × Counts :=
  let q := String.mk (trimSpace quizId.data)
  if q = "" then (.error .quizNotFound, st, Counts.zero)
  else
    match alookup q st.quizMetaCache with
    | some metadata => (.ok metadata, st, Counts.zero)
    | none =>
      match getQuizMetadata st.db q with
      | .ok metadata =>
        (.ok metadata,
         { st with quizMetaCache := aset metadata.quizId metadata st.quizMetaCache },
         ⟨1, 0, 0, 0, 0, 0, 0⟩)
      | .error e =>
        if e ≠ .quizNotFound then (.error e, st, ⟨1, 0, 0, 0, 0, 0, 0⟩)
        else if ¬ createIfMissing then
          (.error .quizNotFound, st, ⟨1, 0, 0, 0, 0, 0, 0⟩)
        else
          let r := createQuizWithID fetcher st q questionCount now
          (r.1, r.2.1, (Counts.add ⟨1, 0, 0, 0, 0, 0, 0⟩ r.2.2))

/-- `GetQuizQuestions` (service.go:76-92). Note that the cached-quiz check
at the top uses the raw, untrimmed quiz id; trimming happens only inside
`EnsureQuiz`. -/
def serviceGetQuizQuestions
    (fetcher : Option (ℤ → Except StoreErr (List Question)))
    (st : SState) (quizId : String) (createIfMissing : Bool)
    (questionCount : ℤ) (now : ℕ) :
    Except StoreErr (QuizMetadata × List Question) × SState × Counts :=
  match alookup quizId st.quizMetaCache, alookup quizId st.quizQuestionsCache with
  | some metadata, some questions => (.ok (metadata, questions), st, Counts.zero)
  | _, _ =>
    match ensureQuiz fetcher st quizId createIfMissing questionCount now with
    | (.error e, st1, c1) => (.error e, st1, c1)
    | (.ok metadata, st1, c1) =>
      match getQuizQuestionRows st1.db metadata.quizId with
      | .error e => (.error e, st1, Counts.add c1 ⟨0, 1, 0, 0, 0, 0, 0⟩)
      | .ok questions =>
        (.ok (metadata, questions),
         { st1 with
           quizMetaCache := aset metadata.quizId metadata st1.quizMetaCache,
           quizQuestionsCache :=
             aset metadata.quizId questions st1.quizQuestionsCache },
         Counts.add c1 ⟨0, 1, 0, 0, 0, 0, 0⟩)

/-- `SubmitResponses` (service.go:147-166): resolve the quiz, normalize the
username, submit through the durable store, then patch the cached
leaderboard and the cached attempt scores. `t` is the call's time. -/
def serviceSubmitResponses (st : SState) (quizId username : String)
    (responses : List SubmittedResponse) (t : ℕ) :
    Except StoreErr (List ResponseResult) × SState × Counts :=
  match ensureQuiz none st quizId false 0 t with
  | (.error e, st1, c1) => (.error e, st1, c1)
  | (.ok metadata, st1, c1) =>
    match normalizeUsername username with
    | .error e => (.error e, st1, c1)
    | .ok usernameNormalized =>
      match submitResponses st1.db metadata.quizId usernameNormalized responses t with
      | .error e => (.error e, st1, Counts.add c1 ⟨0, 0, 0, 0, 1, 0, 0⟩)
      | .ok (results, db1) =>
        let st2 := { st1 with db := db1 }
        let st3 := serviceUpdateLeaderboard st2 metadata.quizId usernameNormalized results t
        let st4 := serviceUpdateAttemptScores st3 metadata.quizId usernameNormalized results
        (.ok results, st4, Counts.add c1 ⟨0, 0, 0, 0, 1, 0, 0⟩)

/-- `GetLeaderboard` (service.go:168-185): resolve the quiz, serve the
cached order on a hit, else aggregate from the durable store and cache the
result; the limit is applied to the cached order. -/
def serviceGetLeaderboard (st : SState) (quizId : String) (limit : ℤ) (now : ℕ) :
    Except StoreErr (List LeaderboardEntry) × SState × Counts :=
  match ensureQuiz none st quizId false 0 now with
  | (.error e, st1, c1) => (.error e, st1, c1)
  | (.ok metadata, st1, c1) =>
    match alookup metadata.quizId st1.leaderboardCache with
    | some entries => (.ok (applyLeaderboardLimit entries limit), st1, c1)
    | none =>
      match getLeaderboard st1.db metadata.quizId with
      | .error e => (.error e, st1, Counts.add c1 ⟨0, 0, 1, 0, 0, 0, 0⟩)
      | .ok entries =>
        (.ok (applyLeaderboardLimit entries limit),
         { st1 with
           leaderboardCache := aset metadata.quizId entries st1.leaderboardCache },
         Counts.add c1 ⟨0, 0, 1, 0, 0, 0, 0⟩)

/-- `GetAttemptScores` (service.go:187-208). -/
def serviceGetAttemptScores (st : SState) (quizId username : String) (now : ℕ) :
    Except StoreErr (List (String × ℤ)) × SState × Counts :=
  match ensureQuiz none st quizId false 0 now with
  | (.error e, st1, c1) => (.error e, st1, c1)
  | (.ok metadata, st1, c1) =>
    match normalizeUsername username with
    | .error e => (.error e, st1, c1)
    | .ok usernameNormalized =>
      match alookup (attemptScoresCacheKey metadata.quizId usernameNormalized)
          st1.attemptScoresCache with
      | some scores => (.ok scores, st1, c1)
      | none =>
        let scores := getAttemptScores st1.db metadata.quizId usernameNormalized
        (.ok scores,
         { st1 with
           attemptScoresCache :=
             aset (attemptScoresCacheKey metadata.quizId usernameNormalized) scores
               st1.attemptScoresCache },
         Counts.add c1 ⟨0, 0, 0, 1, 0, 0, 0⟩)

/-! ## Derived definitions used by the specification theorems -/

/-- Key equality: what both ranking orders compare. -/
def rankKeyEq (a b : LeaderboardEntry) : Prop :=
  a.totalScore = b.totalScore ∧ a.lastSubmissionAt = b.lastSubmissionAt ∧
    a.username = b.username

/-- Structural companion of the up-walk: `Ar` is the reversed prefix before
the moved entry `x` (nearest predecessor first), `B` the suffix after it.
Predecessors that `x` ranks strictly before are moved past (prepended to the
suffix). Returns the remaining reversed prefix and the final suffix. -/
def upSplit : List LeaderboardEntry → LeaderboardEntry → List LeaderboardEntry →
    List LeaderboardEntry × List LeaderboardEntry
  | [], _, B => ([], B)
  | p :: Ar, x, B =>
    if leaderboardBefore x p then upSplit Ar x (p :: B) else (p :: Ar, B)

/-- Structural companion of the down-walk: insert `x` into `B`, moving past
the entries that rank strictly before it. -/
def downS (x : LeaderboardEntry) : List LeaderboardEntry → List LeaderboardEntry
  | [] => [x]
  | q :: B => if leaderboardBefore q x then q :: downS x B else x :: q :: B

/-- The sorted authoritative aggregation — the value `GetLeaderboard`
returns for an existing quiz. -/
def sortedAggregate (attempts : List Attempt) (quizId : String) :
    List LeaderboardEntry :=
  List.insertionSort sqlLE (aggregateEntries attempts quizId)

/-- Per-item obligations of one submission result against its request. -/
def resultMatches (keys : List (String × AnswerKey)) (r : SubmittedResponse)
    (x : ResponseResult) : Prop :=
  x.questionId = r.questionId ∧
  (alookup r.questionId keys = none → x.status = .invalidQuestion) ∧
  (alookup r.questionId keys ≠ none → x.status ≠ .invalidQuestion)

/-- The §3 invariant: every materialized cached leaderboard equals the
sorted aggregation of the durable attempts of its quiz. -/
def lbInvariant (st : SState) : Prop :=
  ∀ q entries, alookup q st.leaderboardCache = some entries →
    entries = sortedAggregate st.db.attempts q

/-- All persisted attempt timestamps are at most `t`. -/
def dbTimesLE (db : DB) (t : ℕ) : Prop :=
  ∀ a ∈ db.attempts, a.submittedAtUnix ≤ t

/-- Orchestrator events relevant to the leaderboard cache: submissions and
leaderboard reads (which may materialize the cache). The timestamp is the
event's `time.Now()`. -/
inductive Event where
  | submit (quizId username : String) (responses : List SubmittedResponse) (t : ℕ)
  | readLeaderboard (quizId : String) (limit : ℤ) (t : ℕ)

def stepEvent (st : SState) : Event → SState
  | .submit q u rs t => (serviceSubmitResponses st q u rs t).2.1
  | .readLeaderboard q lim t => (serviceGetLeaderboard st q lim t).2.1

def runEvents (st : SState) : List Event → SState
  | [] => st
  | e :: rest => runEvents (stepEvent st e) rest

/-- Clock hygiene of a trace: submission timestamps never precede the bound
accumulated so far (the wall clock does not run backwards). -/
def timesOK : ℕ → List Event → Prop
  | _, [] => True
  | t0, .submit _ _ _ t :: rest => t0 ≤ t ∧ timesOK t rest
  | t0, .readLeaderboard _ _ _ :: rest => timesOK t0 rest

/-! ## Concrete fixtures used in witnesses and counterexamples -/

/-- A stored quiz with two two-option questions (`q1` correct = A, `q2`
correct = B) and no attempts yet. -/
def fixtureDB : DB :=
  { quizzes := [⟨"quiz-1", 5, 2⟩]
    questions :=
      [⟨"q1", "p1", [⟨"A", "one"⟩, ⟨"B", "two"⟩], 0, 2, 5⟩,
       ⟨"q2", "p2", [⟨"A", "x"⟩, ⟨"B", "y"⟩], 1, 2, 5⟩]
    quizQuestions := [⟨"quiz-1", "q1", 0⟩, ⟨"quiz-1", "q2", 1⟩]
    attempts := [] }

/-- `fixtureDB` after alice answered `q1` with A (correct, score 1). -/
def fixtureDBAfterA : DB :=
  { fixtureDB with attempts := [⟨"quiz-1", "q1", "alice", "A", 1, 10⟩] }

/-- A fresh orchestrator over `fixtureDB`: all caches empty. -/
def fixtureState : SState := ⟨fixtureDB, [], [], [], []⟩

/-- An orchestrator over `fixtureDB` with quiz-1's metadata and questions
already cached (the questions as served by the store). -/
def warmState : SState :=
  { db := fixtureDB
    quizMetaCache := [("quiz-1", ⟨"quiz-1", 2, 5⟩)]
    quizQuestionsCache :=
      [("quiz-1",
        [⟨"q1", "p1", [⟨"A", "one"⟩, ⟨"B", "two"⟩], 0⟩,
         ⟨"q2", "p2", [⟨"A", "x"⟩, ⟨"B", "y"⟩], 1⟩])]
    leaderboardCache := []
    attemptScoresCache := [] }

/-- The §8 ranking fixture: scores alice 2, bob 2, carol 1, dave 1 with
last submissions 200, 400, 500, 500. -/
def rankingAttempts : List Attempt :=
  [⟨"quiz-1", "q1", "bob", "A", 1, 300⟩, ⟨"quiz-1", "q2", "bob", "B", 1, 400⟩,
   ⟨"quiz-1", "q1", "alice", "A", 1, 100⟩, ⟨"quiz-1", "q2", "alice", "B", 1, 200⟩,
   ⟨"quiz-1", "q1", "carol", "A", 1, 500⟩, ⟨"quiz-1", "q2", "dave", "A", 1, 500⟩]

/-- `fixtureDB` with prior attempts, about to be overwritten. -/
def overwriteDB : DB := { fixtureDB with attempts := rankingAttempts }

/-- The replacement question set for the overwrite. -/
def overwriteQuestions : List Question :=
  [⟨"r1", "fresh prompt", [⟨"A", "t1"⟩, ⟨"B", "t2"⟩], 1⟩]

/-- A trace for the incremental-vs-aggregate witness: materialize quiz-1's
leaderboard, then three submissions (one with a mixed-case username). -/
def witnessEvents : List Event :=
  [.readLeaderboard "quiz-1" (-1) 5,
   .submit "quiz-1" " Alice " [⟨"q1", "a"⟩] 10,
   .submit "quiz-1" "bob" [⟨"q1", "b"⟩, ⟨"q2", "b"⟩] 20,
   .submit "quiz-1" " ALICE " [⟨"q1", "b"⟩, ⟨"q2", "a"⟩] 30]

/-! ## Order theory of the ranking comparator -/

theorem strLtB_irrefl (a : List Char) : strLtB a a = false := by
  induction a with
  | nil => rfl
  | cons c cs ih => simp [strLtB, ih]

theorem strLtB_asymm {a b : List Char} (h : strLtB a b = true) :
    strLtB b a = false := by
  induction a generalizing b with
  | nil =>
    cases b with
    | nil => simp [strLtB] at h
    | cons y ys => simp [strLtB]
  | cons x xs ih =>
    cases b with
    | nil => simp [strLtB] at h
    | cons y ys =>
      simp only [strLtB] at h ⊢
      rcases Nat.lt_trichotomy x.toNat y.toNat with hlt | heq | hgt
      · have h1 : ¬ y.toNat < x.toNat := by omega
        simp [if_neg h1, if_pos hlt]
      · have h1 : ¬ x.toNat < y.toNat := by omega
        have h2 : ¬ y.toNat < x.toNat := by omega
        simp only [if_neg h1, if_neg h2] at h ⊢
        exact ih h
      · have h1 : ¬ x.toNat < y.toNat := by omega
        simp [if_neg h1, if_pos hgt] at h

theorem strLtB_antisymm {a b : List Char}
    (h1 : strLtB a b = false) (h2 : strLtB b a = false) : a = b := by
  induction a generalizing b with
  | nil =>
    cases b with
    | nil => rfl
    | cons y ys => simp [strLtB] at h1
  | cons x xs ih =>
    cases b with
    | nil => simp [strLtB] at h2
    | cons y ys =>
      simp only [strLtB] at h1 h2
      rcases Nat.lt_trichotomy x.toNat y.toNat with hlt | heq | hgt
      · simp [if_pos hlt] at h1
      · have hn1 : ¬ x.toNat < y.toNat := by omega
        have hn2 : ¬ y.toNat < x.toNat := by omega
        simp only [if_neg hn1, if_neg hn2] at h1 h2
        have hxy : x = y := Char.ext (UInt32.ext heq)
        rw [hxy, ih h1 h2]
      · have hn1 : ¬ x.toNat < y.toNat := by omega
        simp [if_neg hn1, if_pos hgt] at h2

theorem strLtB_trans {a b c : List Char}
    (h1 : strLtB a b = true) (h2 : strLtB b c = true) : strLtB a c = true := by
  induction a generalizing b c with
  | nil =>
    cases c with
    | nil =>
      cases b with
      | nil => simp [strLtB] at h1
      | cons y ys => simp [strLtB] at h2
    | cons z zs => simp [strLtB]
  | cons x xs ih =>
    cases b with
    | nil => simp [strLtB] at h1
    | cons y ys =>
      cases c with
      | nil => simp [strLtB] at h2
      | cons z zs =>
        simp only [strLtB] at h1 h2 ⊢
        rcases Nat.lt_trichotomy x.toNat y.toNat with hxy | hxy | hxy
        · rcases Nat.lt_trichotomy y.toNat z.toNat with hyz | hyz | hyz
          · simp [if_pos (show x.toNat < z.toNat by omega)]
          · simp [if_pos (show x.toNat < z.toNat by omega)]
          · have hn1 : ¬ y.toNat < z.toNat := by omega
            simp [if_neg hn1, if_pos hyz] at h2
        · rcases Nat.lt_trichotomy y.toNat z.toNat with hyz | hyz | hyz
          · simp [if_pos (show x.toNat < z.toNat by omega)]
          · have hn1 : ¬ x.toNat < y.toNat := by omega
            have hn2 : ¬ y.toNat < x.toNat := by omega
            have hn3 : ¬ y.toNat < z.toNat := by omega
            have hn4 : ¬ z.toNat < y.toNat := by omega
            have hn5 : ¬ x.toNat < z.toNat := by omega
            have hn6 : ¬ z.toNat < x.toNat := by omega
            simp only [if_neg hn1, if_neg hn2] at h1
            simp only [if_neg hn3, if_neg hn4] at h2
            simp only [if_neg hn5, if_neg hn6]
            exact ih h1 h2
          · have hn1 : ¬ y.toNat < z.toNat := by omega
            simp [if_neg hn1, if_pos hyz] at h2
        · have hn1 : ¬ x.toNat < y.toNat := by omega
          simp [if_neg hn1, if_pos hxy] at h1

theorem string_eq_of_data {a b : String} (h : a.data = b.data) : a = b := by
  cases a with
  | mk da =>
    cases b with
    | mk db =>
      simp only at h
      rw [h]

theorem strLt_irrefl (a : String) : strLt a a = false := strLtB_irrefl a.data

theorem strLt_asymm {a b : String} (h : strLt a b = true) : strLt b a = false :=
  strLtB_asymm h

theorem strLt_antisymm {a b : String}
    (h1 : strLt a b = false) (h2 : strLt b a = false) : a = b :=
  string_eq_of_data (strLtB_antisymm h1 h2)

theorem strLt_trans {a b c : String}
    (h1 : strLt a b = true) (h2 : strLt b c = true) : strLt a c = true :=
  strLtB_trans h1 h2

/-- Propositional characterization of the cache comparator: strict
lexicographic order on (score descending, time ascending, username
ascending). -/
theorem leaderboardBefore_iff (a b : LeaderboardEntry) :
    leaderboardBefore a b = true ↔
      b.totalScore < a.totalScore ∨
        (a.totalScore = b.totalScore ∧
          (a.lastSubmissionAt < b.lastSubmissionAt ∨
            (a.lastSubmissionAt = b.lastSubmissionAt ∧
              strLt a.username b.username = true))) := by
  unfold leaderboardBefore
  by_cases e1 : a.totalScore = b.totalScore
  · by_cases e2 : a.lastSubmissionAt = b.lastSubmissionAt
    · rw [if_neg (by simp [e1]), if_neg (by simp [e2])]
      constructor
      · intro h; exact Or.inr ⟨e1, Or.inr ⟨e2, h⟩⟩
      · rintro (h | ⟨_, (h | ⟨_, h⟩)⟩)
        · omega
        · omega
        · exact h
    · rw [if_neg (by simp [e1]), if_pos (by simp [e2])]
      simp only [decide_eq_true_eq]
      constructor
      · intro h; exact Or.inr ⟨e1, Or.inl h⟩
      · rintro (h | ⟨_, (h | ⟨h2, _⟩)⟩)
        · omega
        · exact h
        · exact absurd h2 e2
  · rw [if_pos (by simp [e1])]
    simp only [decide_eq_true_eq]
    constructor
    · intro h; exact Or.inl h
    · rintro (h | ⟨h2, _⟩)
      · exact h
      · exact absurd h2 e1

theorem leaderboardBefore_irrefl (a : LeaderboardEntry) :
    leaderboardBefore a a = false := by
  simp [leaderboardBefore, strLt_irrefl]

theorem leaderboardBefore_asymm {a b : LeaderboardEntry}
    (h : leaderboardBefore a b = true) : leaderboardBefore b a = false := by
  rw [leaderboardBefore_iff] at h
  rw [Bool.eq_false_iff]
  intro hba
  rw [leaderboardBefore_iff] at hba
  rcases h with h | ⟨he, h⟩ <;> rcases hba with hb | ⟨hbe, hb⟩
  · omega
  · omega
  · omega
  · rcases h with h | ⟨he2, h⟩ <;> rcases hb with hb | ⟨hbe2, hb⟩
    · omega
    · omega
    · omega
    · have := strLt_asymm h
      rw [this] at hb
      exact absurd hb (by simp)

theorem leaderboardBefore_keyEq {a b : LeaderboardEntry}
    (h1 : leaderboardBefore a b = false) (h2 : leaderboardBefore b a = false) :
    rankKeyEq a b := by
  have n1 : ¬ (leaderboardBefore a b = true) := by simp [h1]
  have n2 : ¬ (leaderboardBefore b a = true) := by simp [h2]
  rw [leaderboardBefore_iff] at n1 n2
  push_neg at n1 n2
  have he : a.totalScore = b.totalScore := by omega
  have ht : a.lastSubmissionAt = b.lastSubmissionAt := by
    have := n1.2 he
    have := n2.2 he.symm
    omega
  refine ⟨he, ht, ?_⟩
  have hu1 := (n1.2 he).2 ht
  have hu2 := (n2.2 he.symm).2 ht.symm
  exact strLt_antisymm (by simpa using hu1) (by simpa using hu2)

theorem leaderboardBefore_trans {a b c : LeaderboardEntry}
    (h1 : leaderboardBefore a b = true) (h2 : leaderboardBefore b c = true) :
    leaderboardBefore a c = true := by
  rw [leaderboardBefore_iff] at h1 h2 ⊢
  rcases h1 with h1 | ⟨e1, h1⟩
  · rcases h2 with h2 | ⟨e2, h2⟩
    · left; omega
    · left; omega
  · rcases h2 with h2 | ⟨e2, h2⟩
    · left; omega
    · right
      refine ⟨e1.trans e2, ?_⟩
      rcases h1 with h1 | ⟨t1, h1⟩
      · rcases h2 with h2 | ⟨t2, h2⟩
        · left; omega
        · left; omega
      · rcases h2 with h2 | ⟨t2, h2⟩
        · left; omega
        · right; exact ⟨t1.trans t2, strLt_trans h1 h2⟩

/-- Trichotomy of the cache comparator: two entries compare strictly one
way or the other, or agree on the whole ranking key. -/
theorem leaderboardBefore_trichotomy (a b : LeaderboardEntry) :
    leaderboardBefore a b = true ∨ leaderboardBefore b a = true ∨ rankKeyEq a b := by
  by_cases h1 : leaderboardBefore a b = true
  · exact Or.inl h1
  · by_cases h2 : leaderboardBefore b a = true
    · exact Or.inr (Or.inl h2)
    · exact Or.inr (Or.inr (leaderboardBefore_keyEq (by simpa using h1) (by simpa using h2)))

/-- The sort order is the reflexive closure of the cache comparator on the
ranking key. -/
theorem sqlLE_iff (a b : LeaderboardEntry) :
    sqlLE a b ↔ (leaderboardBefore a b = true ∨ rankKeyEq a b) := by
  rw [leaderboardBefore_iff]
  unfold sqlLE rankKeyEq
  tauto

theorem keyEq_not_before {a b : LeaderboardEntry} (hk : rankKeyEq a b) :
    leaderboardBefore b a = false := by
  obtain ⟨h1, h2, h3⟩ := hk
  unfold leaderboardBefore
  rw [h1, h2, h3]
  simp [strLt_irrefl]

/-- The non-strict order used for sorting agrees with the negation of the
cache comparator in the other direction. -/
theorem sqlLE_iff_not_before (a b : LeaderboardEntry) :
    sqlLE a b ↔ leaderboardBefore b a = false := by
  rw [sqlLE_iff]
  constructor
  · rintro (h | hk)
    · exact leaderboardBefore_asymm h
    · exact keyEq_not_before hk
  · intro h
    rcases leaderboardBefore_trichotomy a b with h1 | h1 | h1
    · exact Or.inl h1
    · rw [h1] at h; exact absurd h (by simp)
    · exact Or.inr h1

instance : IsTotal LeaderboardEntry sqlLE where
  total a b := by
    rw [sqlLE_iff_not_before, sqlLE_iff_not_before]
    by_cases h : leaderboardBefore b a = true
    · exact Or.inr (leaderboardBefore_asymm h)
    · exact Or.inl (by simpa using h)

instance : IsTrans LeaderboardEntry sqlLE where
  trans a b c h1 h2 := by
    rw [sqlLE_iff_not_before] at h1 h2 ⊢
    by_cases hca : leaderboardBefore c a = true
    · rcases leaderboardBefore_trichotomy b c with hbc | hcb | hk
      · have hba := leaderboardBefore_trans hbc hca
        rw [hba] at h1
        exact absurd h1 (by simp)
      · rw [h2] at hcb
        exact absurd hcb (by simp)
      · obtain ⟨k1, k2, k3⟩ := hk
        unfold leaderboardBefore at hca h1
        rw [← k1, ← k2, ← k3] at hca
        rw [hca] at h1
        exact absurd h1 (by simp)
    · simpa using hca

/-! ## Characterization of the local bubbling repair

`bubbleLeaderboard` is an in-place index algorithm; the lemmas below restate
it structurally: the up-walk splits the prefix at the first predecessor the
moved entry does not rank before, and the down-walk is an ordered insertion
into the suffix. -/

theorem get?_append_cons {α : Type} (C : List α) (y : α) (D : List α) :
    (C ++ y :: D).get? C.length = some y := by
  rw [List.get?_eq_getElem?, List.getElem?_append_right (le_refl C.length)]
  simp

theorem get?_append_cons₂ {α : Type} (C : List α) (y z : α) (D : List α) :
    (C ++ y :: z :: D).get? (C.length + 1) = some z := by
  have h : C ++ y :: z :: D = (C ++ [y]) ++ z :: D := by simp
  have h2 : (C ++ [y]).length = C.length + 1 := by simp
  rw [h, ← h2, get?_append_cons]

theorem swapIdx_append (C : List LeaderboardEntry) (a b : LeaderboardEntry)
    (D : List LeaderboardEntry) :
    swapIdx (C ++ a :: b :: D) C.length (C.length + 1) = C ++ b :: a :: D := by
  unfold swapIdx
  rw [get?_append_cons, get?_append_cons₂]
  dsimp only
  rw [List.set_append, if_neg (by omega)]
  rw [List.set_append, if_neg (by omega)]
  simp

theorem bubbleUp_spec (Ar : List LeaderboardEntry) (x : LeaderboardEntry)
    (B : List LeaderboardEntry) :
    bubbleUp (Ar.reverse ++ x :: B) Ar.length =
      ((upSplit Ar x B).1.reverse ++ x :: (upSplit Ar x B).2,
       (upSplit Ar x B).1.length) := by
  induction Ar generalizing B with
  | nil => simp [bubbleUp, upSplit]
  | cons p Ar ih =>
    have hl : (p :: Ar).reverse ++ x :: B = Ar.reverse ++ p :: x :: B := by simp
    have hlen : (p :: Ar).length = Ar.length + 1 := rfl
    rw [hl, hlen]
    have hg1 : (Ar.reverse ++ p :: x :: B).get? Ar.reverse.length = some p :=
      get?_append_cons _ _ _
    have hg2 : (Ar.reverse ++ p :: x :: B).get? (Ar.reverse.length + 1) = some x :=
      get?_append_cons₂ _ _ _ _
    rw [List.length_reverse] at hg1 hg2
    unfold bubbleUp
    rw [hg1, hg2]
    dsimp only
    by_cases hb : leaderboardBefore x p = true
    · rw [if_pos hb]
      have hsw : swapIdx (Ar.reverse ++ p :: x :: B) Ar.length (Ar.length + 1) =
          Ar.reverse ++ x :: p :: B := by
        have := swapIdx_append Ar.reverse p x B
        rw [List.length_reverse] at this
        rw [this]
      rw [hsw]
      rw [ih (p :: B)]
      simp only [upSplit]
      rw [if_pos hb]
    · rw [if_neg hb]
      simp only [upSplit]
      rw [if_neg hb]
      simp

theorem upSplit_spec (Ar : List LeaderboardEntry) (x : LeaderboardEntry)
    (B : List LeaderboardEntry) :
    ∃ moved,
      Ar = moved ++ (upSplit Ar x B).1 ∧
      (upSplit Ar x B).2 = moved.reverse ++ B ∧
      (∀ p ∈ moved, leaderboardBefore x p = true) ∧
      (∀ h, (upSplit Ar x B).1.head? = some h → leaderboardBefore x h = false) := by
  induction Ar generalizing B with
  | nil =>
    refine ⟨[], by simp [upSplit], by simp [upSplit], by simp, ?_⟩
    intro h hh
    simp [upSplit] at hh
  | cons p Ar ih =>
    by_cases hb : leaderboardBefore x p = true
    · obtain ⟨moved, h1, h2, h3, h4⟩ := ih (p :: B)
      refine ⟨p :: moved, ?_, ?_, ?_, ?_⟩
      · show p :: Ar = (p :: moved) ++ (upSplit (p :: Ar) x B).1
        simp only [upSplit]
        rw [if_pos hb]
        simpa using h1
      · simp only [upSplit]
        rw [if_pos hb]
        rw [h2]
        simp
      · intro q hq
        rcases List.mem_cons.mp hq with h | h
        · rw [h]; exact hb
        · exact h3 q h
      · intro h hh
        simp only [upSplit] at hh
        rw [if_pos hb] at hh
        exact h4 h hh
    · refine ⟨[], ?_, ?_, by simp, ?_⟩
      · simp only [upSplit]
        rw [if_neg hb]
        simp
      · simp only [upSplit]
        rw [if_neg hb]
        simp
      · intro h hh
        simp only [upSplit] at hh
        rw [if_neg hb] at hh
        simp at hh
        rw [← hh]
        simpa using hb

theorem downS_perm (x : LeaderboardEntry) (B : List LeaderboardEntry) :
    (downS x B).Perm (x :: B) := by
  induction B with
  | nil => simp [downS]
  | cons q B ih =>
    unfold downS
    by_cases hb : leaderboardBefore q x = true
    · rw [if_pos hb]
      exact (ih.cons q).trans (List.Perm.swap x q B)
    · rw [if_neg hb]

theorem downS_sorted {x : LeaderboardEntry} {B : List LeaderboardEntry}
    (hB : B.Pairwise sqlLE) : (downS x B).Pairwise sqlLE := by
  induction B with
  | nil => simp [downS]
  | cons q B ih =>
    unfold downS
    rcases List.pairwise_cons.mp hB with ⟨hq, hB'⟩
    by_cases hb : leaderboardBefore q x = true
    · rw [if_pos hb]
      refine List.pairwise_cons.mpr ⟨?_, ih hB'⟩
      intro b hbmem
      rcases List.mem_cons.mp ((downS_perm x B).mem_iff.mp hbmem) with h | h
      · rw [h]
        exact (sqlLE_iff_not_before q x).mpr (leaderboardBefore_asymm hb)
      · exact hq b h
    · rw [if_neg hb]
      refine List.pairwise_cons.mpr ⟨?_, hB⟩
      intro b hbmem
      have hxq : sqlLE x q := (sqlLE_iff_not_before x q).mpr (by simpa using hb)
      rcases List.mem_cons.mp hbmem with h | h
      · rw [h]; exact hxq
      · exact IsTrans.trans x q b hxq (hq b h)

theorem get?_none_of_length_le {α : Type} {l : List α} {n : ℕ}
    (h : l.length ≤ n) : l.get? n = none := by
  rw [List.get?_eq_getElem?]
  exact List.getElem?_eq_none h

theorem bubbleDownAux_spec (B : List LeaderboardEntry)
    (A : List LeaderboardEntry) (x : LeaderboardEntry) (fuel : ℕ)
    (hf : B.length < fuel) :
    bubbleDownAux fuel (A ++ x :: B) A.length = A ++ downS x B := by
  induction B generalizing A fuel with
  | nil =>
    cases fuel with
    | zero => omega
    | succ f =>
      unfold bubbleDownAux
      rw [get?_append_cons]
      have hnone : (A ++ [x]).get? (A.length + 1) = none :=
        get?_none_of_length_le (by simp)
      rw [hnone]
      dsimp only
      simp [downS]
  | cons q B ih =>
    cases fuel with
    | zero => omega
    | succ f =>
      unfold bubbleDownAux
      rw [get?_append_cons, get?_append_cons₂]
      dsimp only
      by_cases hb : leaderboardBefore q x = true
      · rw [if_pos hb]
        rw [swapIdx_append]
        have hsplit : A ++ q :: x :: B = (A ++ [q]) ++ x :: B := by simp
        have hlen : A.length + 1 = (A ++ [q]).length := by simp
        rw [hsplit, hlen, ih (A ++ [q]) f (by simpa using hf)]
        simp only [downS]
        rw [if_pos hb]
        simp
      · rw [if_neg hb]
        simp only [downS]
        rw [if_neg hb]

/-- Full characterization of `bubbleLeaderboard` on a decomposed list: the
prefix split of the up-walk followed by ordered insertion into the final
suffix. -/
theorem bubbleLeaderboard_eq (Ar : List LeaderboardEntry)
    (x : LeaderboardEntry) (B : List LeaderboardEntry) :
    bubbleLeaderboard (Ar.reverse ++ x :: B) Ar.length =
      (upSplit Ar x B).1.reverse ++ downS x (upSplit Ar x B).2 := by
  unfold bubbleLeaderboard
  rw [bubbleUp_spec]
  unfold bubbleDown
  have hlen : (upSplit Ar x B).2.length <
      ((upSplit Ar x B).1.reverse ++ x :: (upSplit Ar x B).2).length := by
    simp
    omega
  have := bubbleDownAux_spec (upSplit Ar x B).2 (upSplit Ar x B).1.reverse x
    (((upSplit Ar x B).1.reverse ++ x :: (upSplit Ar x B).2).length) hlen
  rw [List.length_reverse] at this
  exact this

/-- The bubbling repair permutes its input. -/
theorem bubbleLeaderboard_perm (Ar : List LeaderboardEntry)
    (x : LeaderboardEntry) (B : List LeaderboardEntry) :
    (bubbleLeaderboard (Ar.reverse ++ x :: B) Ar.length).Perm
      (Ar.reverse ++ x :: B) := by
  rw [bubbleLeaderboard_eq]
  obtain ⟨moved, h1, h2, h3, h4⟩ := upSplit_spec Ar x B
  set P := (upSplit Ar x B).1 with hPdef
  set S := (upSplit Ar x B).2 with hSdef
  have hrev : Ar.reverse = P.reverse ++ moved.reverse := by
    rw [h1]
    simp
  rw [h2, hrev]
  have p0 := List.Perm.append_left P.reverse (downS_perm x (moved.reverse ++ B))
  have p1 : (x :: (moved.reverse ++ B)).Perm (moved.reverse ++ x :: B) :=
    List.perm_middle.symm
  have p2 := List.Perm.append_left P.reverse p1
  have hassoc : P.reverse ++ moved.reverse ++ x :: B =
      P.reverse ++ (moved.reverse ++ x :: B) := by simp
  rw [hassoc]
  exact p0.trans p2

/-- The bubbling repair restores sortedness when everything but the moved
entry was sorted. -/
theorem bubbleLeaderboard_sorted (Ar : List LeaderboardEntry)
    (x : LeaderboardEntry) (B : List LeaderboardEntry)
    (hs : (Ar.reverse ++ B).Pairwise sqlLE) :
    (bubbleLeaderboard (Ar.reverse ++ x :: B) Ar.length).Pairwise sqlLE := by
  rw [bubbleLeaderboard_eq]
  obtain ⟨moved, h1, h2, h3, h4⟩ := upSplit_spec Ar x B
  set P := (upSplit Ar x B).1 with hPdef
  set S := (upSplit Ar x B).2 with hSdef
  have hdecomp : Ar.reverse ++ B = P.reverse ++ (moved.reverse ++ B) := by
    rw [h1]
    simp
  rw [hdecomp] at hs
  rcases List.pairwise_append.mp hs with ⟨hpre, hsuf, hcross⟩
  rw [h2]
  refine List.pairwise_append.mpr ⟨hpre, downS_sorted hsuf, ?_⟩
  intro a ha b hb
  rcases List.mem_cons.mp ((downS_perm x _).mem_iff.mp hb) with hbx | hbm
  · subst hbx
    rcases hhead : P with _ | ⟨h, t⟩
    · rw [hhead] at ha
      simp at ha
    · have hhx : sqlLE h b :=
        (sqlLE_iff_not_before h b).mpr (h4 h (by rw [hhead]; rfl))
      rw [hhead, List.reverse_cons] at ha
      rcases List.mem_append.mp ha with hat | hah
      · have hsorted : (t.reverse ++ [h]).Pairwise sqlLE := by
          rw [hhead, List.reverse_cons] at hpre
          exact hpre
        rcases List.pairwise_append.mp hsorted with ⟨_, _, hc⟩
        exact IsTrans.trans a h b (hc a hat h (by simp)) hhx
      · have haeq : a = h := by simpa using hah
        rw [haeq]
        exact hhx
  · exact hcross a ha b hbm

/-- `bubbleLeaderboard_perm` restated on the direct prefix. -/
theorem bubbleLeaderboard_perm2 (A : List LeaderboardEntry)
    (x : LeaderboardEntry) (B : List LeaderboardEntry) :
    (bubbleLeaderboard (A ++ x :: B) A.length).Perm (A ++ x :: B) := by
  have h := bubbleLeaderboard_perm A.reverse x B
  rw [List.reverse_reverse, List.length_reverse] at h
  exact h

/-- `bubbleLeaderboard_sorted` restated on the direct prefix. -/
theorem bubbleLeaderboard_sorted2 (A : List LeaderboardEntry)
    (x : LeaderboardEntry) (B : List LeaderboardEntry)
    (hs : (A ++ B).Pairwise sqlLE) :
    (bubbleLeaderboard (A ++ x :: B) A.length).Pairwise sqlLE := by
  have h := bubbleLeaderboard_sorted A.reverse x B
    (by rw [List.reverse_reverse]; exact hs)
  rw [List.reverse_reverse, List.length_reverse] at h
  exact h

/-! ## Uniqueness of the ranking order

`sqlLE` is antisymmetric only up to ranking-key equality, but usernames in
a leaderboard are pairwise distinct and the username is part of the key, so
a sorted leaderboard is determined by its multiset of entries. -/

theorem sorted_perm_eq_of_nodup_usernames :
    ∀ {l₁ l₂ : List LeaderboardEntry}, l₁.Perm l₂ →
      l₁.Pairwise sqlLE → l₂.Pairwise sqlLE →
      (l₁.map (fun e => e.username)).Nodup → l₁ = l₂ := by
  intro l₁
  induction l₁ with
  | nil =>
    intro l₂ hp _ _ _
    exact hp.nil_eq
  | cons a t₁ ih =>
    intro l₂ hp hs₁ hs₂ hn
    cases l₂ with
    | nil => exact absurd hp.symm.nil_eq (by simp)
    | cons b t₂ =>
      rcases List.pairwise_cons.mp hs₁ with ⟨ha, ht₁⟩
      rcases List.pairwise_cons.mp hs₂ with ⟨hb, ht₂⟩
      have hab : a = b := by
        by_contra hne
        have hamem : a ∈ b :: t₂ := hp.subset (by simp)
        have hbmem : b ∈ a :: t₁ := hp.symm.subset (by simp)
        have hat₂ : a ∈ t₂ := by
          rcases List.mem_cons.mp hamem with h | h
          · exact absurd h hne
          · exact h
        have hbt₁ : b ∈ t₁ := by
          rcases List.mem_cons.mp hbmem with h | h
          · exact absurd h.symm hne
          · exact h
        have h1 : sqlLE a b := ha b hbt₁
        have h2 : sqlLE b a := hb a hat₂
        rw [sqlLE_iff_not_before] at h1 h2
        have hk := leaderboardBefore_keyEq h2 h1
        have huser : a.username = b.username := hk.2.2
        rcases List.nodup_cons.mp hn with ⟨hnotin, _⟩
        exact hnotin (by
          show a.username ∈ List.map (fun e => e.username) t₁
          rw [huser]
          exact List.mem_map.mpr ⟨b, hbt₁, rfl⟩)
      subst hab
      have htp : t₁.Perm t₂ := hp.cons_inv
      rw [ih htp ht₁ ht₂ (List.nodup_cons.mp hn).2]

/-! ## Support lemmas: list splitting and index lookup -/

theorem list_split_at_get {α : Type} :
    ∀ (l : List α) (idx : ℕ) (e : α), l.get? idx = some e →
      l = l.take idx ++ e :: l.drop (idx + 1) := by
  intro l
  induction l with
  | nil => intro idx e h; simp at h
  | cons a t ih =>
    intro idx e h
    cases idx with
    | zero =>
      simp at h
      rw [h]
      simp
    | succ n =>
      simp only [List.get?_eq_getElem?] at h
      have h' : t.get? n = some e := by
        rw [List.get?_eq_getElem?]
        simpa using h
      have := ih n e h'
      calc a :: t = a :: (t.take n ++ e :: t.drop (n + 1)) := by rw [← this]
        _ = (a :: t).take (n + 1) ++ e :: (a :: t).drop (n + 2) := by simp

theorem findIdx?_some_spec {α : Type} (p : α → Bool) :
    ∀ (l : List α) (i j : ℕ), List.findIdx? p l j = some (i + j) →
      ∃ e, l.get? i = some e ∧ p e = true := by
  intro l
  induction l with
  | nil => intro i j h; simp [List.findIdx?] at h
  | cons a t ih =>
    intro i j h
    rw [List.findIdx?] at h
    by_cases hp : p a = true
    · rw [if_pos hp] at h
      simp at h
      have : i = 0 := by omega
      subst this
      exact ⟨a, by simp, hp⟩
    · rw [if_neg hp] at h
      cases i with
      | zero =>
        exfalso
        -- findIdx? over the tail starts at j + 1 and only returns ≥ j + 1
        have hmono : ∀ (l' : List α) (k m : ℕ), List.findIdx? p l' k = some m → k ≤ m := by
          intro l'
          induction l' with
          | nil => intro k m hh; simp [List.findIdx?] at hh
          | cons b u ihu =>
            intro k m hh
            rw [List.findIdx?] at hh
            by_cases hb : p b = true
            · rw [if_pos hb] at hh
              simp at hh
              omega
            · rw [if_neg hb] at hh
              have := ihu (k + 1) m hh
              omega
        have := hmono t (j + 1) (0 + j) h
        omega
      | succ n =>
        have h' : List.findIdx? p t (j + 1) = some (n + (j + 1)) := by
          have : n + 1 + j = n + (j + 1) := by omega
          rw [this] at h
          exact h
        obtain ⟨e, he, hpe⟩ := ih n (j + 1) h'
        exact ⟨e, by simpa using he, hpe⟩

theorem findIdx?_some_get {α : Type} (p : α → Bool) (l : List α) (i : ℕ)
    (h : List.findIdx? p l = some i) : ∃ e, l.get? i = some e ∧ p e = true := by
  have := findIdx?_some_spec p l i 0 (by simpa using h)
  exact this

theorem findIdx?_none_spec {α : Type} (p : α → Bool) :
    ∀ (l : List α) (j : ℕ), List.findIdx? p l j = none →
      ∀ e ∈ l, p e = false := by
  intro l
  induction l with
  | nil => intro j _ e he; simp at he
  | cons a t ih =>
    intro j h e he
    rw [List.findIdx?] at h
    by_cases hp : p a = true
    · rw [if_pos hp] at h; simp at h
    · rw [if_neg hp] at h
      rcases List.mem_cons.mp he with he' | he'
      · rw [he']
        simpa using hp
      · exact ih (j + 1) h e he'

/-! ## Aggregation lemmas -/

theorem getLeaderboard_ok {db : DB} {quizId : String}
    (h : quizExists db quizId = true) :
    getLeaderboard db quizId = .ok (sortedAggregate db.attempts quizId) := by
  simp [getLeaderboard, sortedAggregate, h]

theorem sortedAggregate_sorted (attempts : List Attempt) (quizId : String) :
    (sortedAggregate attempts quizId).Pairwise sqlLE :=
  List.sorted_insertionSort sqlLE _

theorem sortedAggregate_perm (attempts : List Attempt) (quizId : String) :
    (sortedAggregate attempts quizId).Perm (aggregateEntries attempts quizId) :=
  List.perm_insertionSort sqlLE _

theorem entryFor_username (attempts : List Attempt) (quizId u : String) :
    (entryFor attempts quizId u).username = u := rfl

theorem aggregate_map_username (attempts : List Attempt) (quizId : String) :
    (aggregateEntries attempts quizId).map (fun e => e.username) =
      usersOf attempts quizId := by
  unfold aggregateEntries
  rw [List.map_map]
  exact List.map_id _

theorem usersOf_nodup (attempts : List Attempt) (quizId : String) :
    (usersOf attempts quizId).Nodup :=
  List.nodup_dedup _

theorem mem_usersOf {attempts : List Attempt} {quizId u : String} :
    u ∈ usersOf attempts quizId ↔
      ∃ a ∈ attempts, a.quizId = quizId ∧ a.usernameNorm = u := by
  unfold usersOf
  rw [List.mem_dedup, List.mem_map]
  constructor
  · rintro ⟨a, ha, rfl⟩
    rcases List.mem_filter.mp ha with ⟨hmem, hq⟩
    exact ⟨a, hmem, by simpa using hq, rfl⟩
  · rintro ⟨a, ha, hq, hu⟩
    exact ⟨a, List.mem_filter.mpr ⟨ha, by simpa using hq⟩, hu⟩

theorem userAttempts_append (l₁ l₂ : List Attempt) (quizId u : String) :
    userAttempts (l₁ ++ l₂) quizId u =
      userAttempts l₁ quizId u ++ userAttempts l₂ quizId u :=
  List.filter_append _ _

theorem userAttempts_news_all {news : List Attempt} {quizId u : String}
    (h : ∀ a ∈ news, a.quizId = quizId ∧ a.usernameNorm = u) :
    userAttempts news quizId u = news := by
  unfold userAttempts
  rw [List.filter_eq_self]
  intro a ha
  rcases h a ha with ⟨h1, h2⟩
  simp [h1, h2]

theorem userAttempts_news_other {news : List Attempt} {quizId u v : String}
    (h : ∀ a ∈ news, a.usernameNorm = u) (hv : v ≠ u) :
    userAttempts news quizId v = [] := by
  unfold userAttempts
  rw [List.filter_eq_nil_iff]
  intro a ha
  rw [h a ha]
  simp
  intro
  exact fun hc => hv hc.symm

theorem entryFor_append_other {attempts news : List Attempt} {quizId u v : String}
    (h : ∀ a ∈ news, a.usernameNorm = u) (hv : v ≠ u) :
    entryFor (attempts ++ news) quizId v = entryFor attempts quizId v := by
  unfold entryFor
  rw [userAttempts_append, userAttempts_news_other h hv]
  simp

theorem foldl_max_le {t : ℕ} :
    ∀ (xs : List ℕ) (s : ℕ), (∀ x ∈ xs, x ≤ t) → s ≤ t → xs.foldl max s ≤ t := by
  intro xs
  induction xs with
  | nil => intro s _ hs; simpa using hs
  | cons x xs ih =>
    intro s hall hs
    simp only [List.foldl_cons]
    exact ih (max s x) (fun y hy => hall y (by simp [hy]))
      (by
        have := hall x (by simp)
        omega)

theorem foldl_max_all_eq {t : ℕ} :
    ∀ (xs : List ℕ) (s : ℕ), (∀ x ∈ xs, x = t) → s ≤ t → xs ≠ [] →
      xs.foldl max s = t := by
  intro xs
  induction xs with
  | nil => intro s _ _ h; exact absurd rfl h
  | cons x xs ih =>
    intro s hall hs _
    simp only [List.foldl_cons]
    have hx : x = t := hall x (by simp)
    by_cases hxs : xs = []
    · subst hxs
      simp only [List.foldl_nil]
      omega
    · exact ih (max s x) (fun y hy => hall y (by simp [hy])) (by omega) hxs

theorem entryFor_append_u {attempts news : List Attempt} {quizId u : String}
    {t : ℕ}
    (hnews : ∀ a ∈ news, a.quizId = quizId ∧ a.usernameNorm = u ∧
      a.submittedAtUnix = t)
    (hne : news ≠ [])
    (htimes : ∀ a ∈ attempts, a.submittedAtUnix ≤ t) :
    entryFor (attempts ++ news) quizId u =
      { username := u
        totalScore := (entryFor attempts quizId u).totalScore +
          (news.map (fun a => a.score)).sum
        answeredCount := (entryFor attempts quizId u).answeredCount + news.length
        lastSubmissionAt := t } := by
  unfold entryFor
  rw [userAttempts_append,
    userAttempts_news_all (fun a ha => ⟨(hnews a ha).1, (hnews a ha).2.1⟩)]
  simp only [List.map_append, List.sum_append, List.length_append,
    List.foldl_append]
  have hstart :
      ((userAttempts attempts quizId u).map (fun a => a.submittedAtUnix)).foldl
        max 0 ≤ t := by
    apply foldl_max_le
    · intro x hx
      rcases List.mem_map.mp hx with ⟨a, ha, rfl⟩
      exact htimes a (List.mem_filter.mp ha).1
    · exact Nat.zero_le t
  have hlast : (news.map (fun a => a.submittedAtUnix)).foldl max
      (((userAttempts attempts quizId u).map (fun a => a.submittedAtUnix)).foldl
        max 0) = t := by
    apply foldl_max_all_eq
    · intro x hx
      rcases List.mem_map.mp hx with ⟨a, ha, rfl⟩
      exact (hnews a ha).2.2
    · exact hstart
    · simpa using hne
  rw [hlast]

theorem usersOf_append_perm_of_mem {attempts news : List Attempt}
    {quizId u : String}
    (hnews : ∀ a ∈ news, a.quizId = quizId ∧ a.usernameNorm = u)
    (hu : u ∈ usersOf attempts quizId) :
    (usersOf (attempts ++ news) quizId).Perm (usersOf attempts quizId) := by
  rw [List.perm_ext_iff_of_nodup (usersOf_nodup _ _) (usersOf_nodup _ _)]
  intro v
  rw [mem_usersOf, mem_usersOf]
  constructor
  · rintro ⟨a, ha, hq, hv⟩
    rcases List.mem_append.mp ha with h | h
    · exact ⟨a, h, hq, hv⟩
    · rcases mem_usersOf.mp hu with ⟨b, hb, hbq, hbu⟩
      refine ⟨b, hb, hbq, ?_⟩
      rw [hbu, ← hv, (hnews a h).2]
  · rintro ⟨a, ha, hq, hv⟩
    exact ⟨a, List.mem_append.mpr (Or.inl ha), hq, hv⟩

theorem usersOf_append_perm_of_not_mem {attempts news : List Attempt}
    {quizId u : String}
    (hnews : ∀ a ∈ news, a.quizId = quizId ∧ a.usernameNorm = u)
    (hne : news ≠ [])
    (hu : u ∉ usersOf attempts quizId) :
    (usersOf (attempts ++ news) quizId).Perm (u :: usersOf attempts quizId) := by
  have hnodup : (u :: usersOf attempts quizId).Nodup :=
    List.nodup_cons.mpr ⟨hu, usersOf_nodup _ _⟩
  rw [List.perm_ext_iff_of_nodup (usersOf_nodup _ _) hnodup]
  intro v
  rw [mem_usersOf, List.mem_cons, mem_usersOf]
  constructor
  · rintro ⟨a, ha, hq, hv⟩
    rcases List.mem_append.mp ha with h | h
    · exact Or.inr ⟨a, h, hq, hv⟩
    · exact Or.inl (by rw [← hv, (hnews a h).2])
  · rintro (hv | ⟨a, ha, hq, hv⟩)
    · rcases List.exists_mem_of_ne_nil news hne with ⟨a, ha⟩
      exact ⟨a, List.mem_append.mpr (Or.inr ha), (hnews a ha).1,
        by rw [(hnews a ha).2, hv]⟩
    · exact ⟨a, List.mem_append.mpr (Or.inl ha), hq, hv⟩

/-- Submissions to one quiz do not change another quiz's aggregation. -/
theorem aggregate_append_other_quiz {attempts news : List Attempt}
    {quizId q2 : String}
    (hnews : ∀ a ∈ news, a.quizId = quizId) (hq : q2 ≠ quizId) :
    aggregateEntries (attempts ++ news) q2 = aggregateEntries attempts q2 := by
  have hfilter : (attempts ++ news).filter (fun a => a.quizId == q2) =
      attempts.filter (fun a => a.quizId == q2) := by
    rw [List.filter_append]
    have : news.filter (fun a => a.quizId == q2) = [] := by
      rw [List.filter_eq_nil_iff]
      intro a ha
      rw [hnews a ha]
      simp
      exact fun hc => hq hc.symm
    rw [this, List.append_nil]
  have husers : usersOf (attempts ++ news) q2 = usersOf attempts q2 := by
    unfold usersOf
    rw [hfilter]
  have hentry : ∀ v, entryFor (attempts ++ news) q2 v = entryFor attempts q2 v := by
    intro v
    unfold entryFor userAttempts
    have : (attempts ++ news).filter
        (fun a => a.quizId == q2 && a.usernameNorm == v) =
        attempts.filter (fun a => a.quizId == q2 && a.usernameNorm == v) := by
      rw [List.filter_append]
      have hnil : news.filter (fun a => a.quizId == q2 && a.usernameNorm == v) = [] := by
        rw [List.filter_eq_nil_iff]
        intro a ha
        rw [hnews a ha]
        simp
        intro hc
        exact absurd hc.symm hq
      rw [hnil, List.append_nil]
    rw [this]
  unfold aggregateEntries
  rw [husers]
  exact List.map_congr_left (fun v _ => hentry v)

/-! ## Lookup lemmas for the Go-map model -/

theorem alookup_cons_pos {β : Type} {q : String × β} {t : List (String × β)}
    {k : String} (h : (q.1 == k) = true) : alookup k (q :: t) = some q.2 := by
  unfold alookup
  rw [@List.find?_cons_of_pos _ (fun r => r.1 == k) q t h]
  rfl

theorem alookup_cons_neg {β : Type} {q : String × β} {t : List (String × β)}
    {k : String} (h : ¬ (q.1 == k) = true) : alookup k (q :: t) = alookup k t := by
  unfold alookup
  rw [@List.find?_cons_of_neg _ (fun r => r.1 == k) q t h]

theorem alookup_map_set {β : Type} (k : String) (v : β) :
    ∀ (l : List (String × β)),
      alookup k (l.map (fun q => if q.1 == k then (k, v) else q)) =
        if (l.find? (fun q => q.1 == k)).isSome then some v else none := by
  intro l
  induction l with
  | nil => simp [alookup]
  | cons q t ih =>
    by_cases hq : (q.1 == k) = true
    · rw [List.map_cons, if_pos hq, alookup_cons_pos (show ((k, v).1 == k) = true by simp),
        @List.find?_cons_of_pos _ (fun r => r.1 == k) q t hq]
      simp
    · rw [List.map_cons, if_neg hq, alookup_cons_neg hq,
        @List.find?_cons_of_neg _ (fun r => r.1 == k) q t hq]
      exact ih

theorem find?_append_none {α : Type} {p : α → Bool} {l₁ : List α}
    (h : l₁.find? p = none) (l₂ : List α) :
    (l₁ ++ l₂).find? p = l₂.find? p := by
  induction l₁ with
  | nil => simp
  | cons a t ih =>
    by_cases hp : p a = true
    · rw [List.find?_cons_of_pos _ hp] at h
      simp at h
    · rw [List.find?_cons_of_neg _ hp] at h
      rw [List.cons_append, List.find?_cons_of_neg _ hp]
      exact ih h

theorem find?_append_some {α : Type} {p : α → Bool} {l₁ : List α} {w : α}
    (h : l₁.find? p = some w) (l₂ : List α) :
    (l₁ ++ l₂).find? p = some w := by
  induction l₁ with
  | nil => simp at h
  | cons a t ih =>
    by_cases hp : p a = true
    · rw [List.find?_cons_of_pos _ hp] at h
      rw [List.cons_append, List.find?_cons_of_pos _ hp]
      exact h
    · rw [List.find?_cons_of_neg _ hp] at h
      rw [List.cons_append, List.find?_cons_of_neg _ hp]
      exact ih h

theorem alookup_aset_self {β : Type} (k : String) (v : β) (l : List (String × β)) :
    alookup k (aset k v l) = some v := by
  unfold aset
  by_cases hs : (l.find? (fun q => q.1 == k)).isSome = true
  · rw [if_pos hs, alookup_map_set, if_pos hs]
  · rw [if_neg hs]
    have hnone : l.find? (fun q => q.1 == k) = none := by
      rcases h : l.find? (fun q => q.1 == k) with _ | w
      · exact h
      · rw [h] at hs; simp at hs
    unfold alookup
    rw [find?_append_none hnone]
    simp

theorem alookup_aset_other {β : Type} {k k2 : String} (hne : k2 ≠ k) (v : β)
    (l : List (String × β)) : alookup k2 (aset k v l) = alookup k2 l := by
  unfold aset
  by_cases hs : (l.find? (fun q => q.1 == k)).isSome = true
  · rw [if_pos hs]
    clear hs
    induction l with
    | nil => simp
    | cons q t ih =>
      by_cases hq : (q.1 == k) = true
      · rw [List.map_cons, if_pos hq]
        have h1 : ¬ ((k, v).1 == k2) = true := by
          simp
          exact fun hc => hne hc.symm
        have h2 : ¬ (q.1 == k2) = true := by
          simp
          intro hc
          rw [hc] at hq
          exact hne (by simpa using hq)
        rw [alookup_cons_neg h1, alookup_cons_neg h2]
        exact ih
      · rw [List.map_cons, if_neg hq]
        by_cases hq2 : (q.1 == k2) = true
        · rw [alookup_cons_pos hq2, alookup_cons_pos hq2]
        · rw [alookup_cons_neg hq2, alookup_cons_neg hq2]
          exact ih
  · rw [if_neg hs]
    unfold alookup
    rcases h : l.find? (fun q => q.1 == k2) with _ | w
    · rw [find?_append_none h]
      have h1 : ([(k, v)].find? (fun q => q.1 == k2)) = none := by
        simp
        exact fun hc => hne hc.symm
      rw [h1, h]
    · rw [find?_append_some h, h]

/-! ## The submission loop: shape of its results and inserted rows -/

theorem evaluate_graded_cases {key : AnswerKey} {answer : String}
    {letter : Char} {status : Status} {score : ℤ}
    (h : evaluateAnswer key answer = .graded letter status score) :
    (status = .correct ∧ score = 1) ∨ (status = .incorrect ∧ score = 0) := by
  unfold evaluateAnswer at h
  rcases hn : normalizeLetter answer with _ | c
  · rw [hn] at h; simp at h
  · rw [hn] at h
    dsimp only at h
    by_cases h1 : key.optionCount ≤ letterIndex c
    · rw [if_pos h1] at h; simp at h
    · rw [if_neg h1] at h
      by_cases h2 : (letterIndex c : ℤ) = key.correctIndex
      · rw [if_pos h2] at h
        simp at h
        exact Or.inl ⟨h.2.1.symm, h.2.2.symm⟩
      · rw [if_neg h2] at h
        simp at h
        exact Or.inr ⟨h.2.1.symm, h.2.2.symm⟩

theorem submitFold_spec (quizId u : String) (t : ℕ)
    (keys : List (String × AnswerKey)) :
    ∀ (rs : List SubmittedResponse) (acc0 : List ResponseResult)
      (atts0 : List Attempt),
      ∃ res news,
        rs.foldl (submitStep quizId u t keys) (acc0, atts0) =
          (acc0 ++ res, atts0 ++ news) ∧
        List.Forall₂ (resultMatches keys) rs res ∧
        (∀ a ∈ news, a.quizId = quizId ∧ a.usernameNorm = u ∧
          a.submittedAtUnix = t ∧ alookup a.questionId keys ≠ none) ∧
        news.length = newAnswersOf res ∧
        (news.map (fun a => a.score)).sum = scoreDeltaOf res := by
  intro rs
  induction rs with
  | nil =>
    intro acc0 atts0
    exact ⟨[], [], by simp, List.Forall₂.nil, by simp,
      by simp [newAnswersOf], by simp [scoreDeltaOf]⟩
  | cons r rs ih =>
    intro acc0 atts0
    rw [List.foldl_cons]
    rcases hk : alookup r.questionId keys with _ | key
    · have hstep : submitStep quizId u t keys (acc0, atts0) r =
          (acc0 ++ [⟨r.questionId, .invalidQuestion, none⟩], atts0) := by
        unfold submitStep
        rw [hk]
      rw [hstep]
      obtain ⟨res, news, heq, hmatch, hnews, hlen, hsum⟩ :=
        ih (acc0 ++ [⟨r.questionId, .invalidQuestion, none⟩]) atts0
      refine ⟨⟨r.questionId, .invalidQuestion, none⟩ :: res, news, ?_, ?_, hnews, ?_, ?_⟩
      · rw [heq]; simp
      · exact List.Forall₂.cons ⟨rfl, fun _ => rfl, fun hne => absurd hk hne⟩ hmatch
      · rw [hlen]
        simp [newAnswersOf, List.countP_cons]
      · rw [hsum]
        simp [scoreDeltaOf, List.countP_cons]
    · rcases he : evaluateAnswer key r.answer with _ | ⟨letter, status, score⟩
      · have hstep : submitStep quizId u t keys (acc0, atts0) r =
            (acc0 ++ [⟨r.questionId, .invalidLetter, none⟩], atts0) := by
          unfold submitStep
          rw [hk]
          dsimp only
          rw [he]
        rw [hstep]
        obtain ⟨res, news, heq, hmatch, hnews, hlen, hsum⟩ :=
          ih (acc0 ++ [⟨r.questionId, .invalidLetter, none⟩]) atts0
        refine ⟨⟨r.questionId, .invalidLetter, none⟩ :: res, news, ?_, ?_, hnews, ?_, ?_⟩
        · rw [heq]; simp
        · refine List.Forall₂.cons ⟨rfl, ?_, ?_⟩ hmatch
          · intro hc; rw [hc] at hk; simp at hk
          · intro _ hc; simp at hc
        · rw [hlen]
          simp [newAnswersOf, List.countP_cons]
        · rw [hsum]
          simp [scoreDeltaOf, List.countP_cons]
      · rcases hf : findAttempt atts0 quizId r.questionId u with _ | existing
        · -- fresh insert
          have hstep : submitStep quizId u t keys (acc0, atts0) r =
              (acc0 ++ [⟨r.questionId, status, none⟩],
               atts0 ++ [⟨quizId, r.questionId, u, String.mk [letter], score, t⟩]) := by
            unfold submitStep
            rw [hk]
            dsimp only
            rw [he]
            dsimp only
            rw [hf]
          rw [hstep]
          obtain ⟨res, news, heq, hmatch, hnews, hlen, hsum⟩ :=
            ih (acc0 ++ [⟨r.questionId, status, none⟩])
              (atts0 ++ [⟨quizId, r.questionId, u, String.mk [letter], score, t⟩])
          refine ⟨⟨r.questionId, status, none⟩ :: res,
            ⟨quizId, r.questionId, u, String.mk [letter], score, t⟩ :: news,
            ?_, ?_, ?_, ?_, ?_⟩
          · rw [heq]; simp
          · refine List.Forall₂.cons ⟨rfl, ?_, ?_⟩ hmatch
            · intro hc; rw [hc] at hk; simp at hk
            · intro _ hc
              rcases evaluate_graded_cases he with ⟨h1, _⟩ | ⟨h1, _⟩ <;>
                (rw [h1] at hc; simp at hc)
          · intro a ha
            rcases List.mem_cons.mp ha with h | h
            · rw [h]
              refine ⟨rfl, rfl, rfl, ?_⟩
              simp only
              rw [hk]
              simp
            · exact hnews a h
          · rcases evaluate_graded_cases he with ⟨h1, _⟩ | ⟨h1, _⟩ <;>
              (subst h1
               simp only [List.length_cons, hlen, newAnswersOf, List.countP_cons]
               simp)
          · rcases evaluate_graded_cases he with ⟨h1, h2⟩ | ⟨h1, h2⟩ <;>
              (subst h1
               subst h2
               simp only [List.map_cons, List.sum_cons, hsum, scoreDeltaOf,
                 List.countP_cons]
               simp
               try omega)
        · -- duplicate: result only, no row
          have hstep : submitStep quizId u t keys (acc0, atts0) r =
              (acc0 ++ [⟨r.questionId, .alreadyAnswered, some existing.score⟩],
               atts0) := by
            unfold submitStep
            rw [hk]
            dsimp only
            rw [he]
            dsimp only
            rw [hf]
          rw [hstep]
          obtain ⟨res, news, heq, hmatch, hnews, hlen, hsum⟩ :=
            ih (acc0 ++ [⟨r.questionId, .alreadyAnswered, some existing.score⟩]) atts0
          refine ⟨⟨r.questionId, .alreadyAnswered, some existing.score⟩ :: res,
            news, ?_, ?_, hnews, ?_, ?_⟩
          · rw [heq]; simp
          · refine List.Forall₂.cons ⟨rfl, ?_, ?_⟩ hmatch
            · intro hc; rw [hc] at hk; simp at hk
            · intro _ hc; simp at hc
          · rw [hlen]
            simp [newAnswersOf, List.countP_cons]
          · rw [hsum]
            simp [scoreDeltaOf, List.countP_cons]

/-- The committed form of a successful `SubmitResponses` call: results plus
appended rows of the call's quiz, user and timestamp, with the new-row count
and score sum matching the result statuses. -/
theorem submitResponses_ok_spec {db : DB} {quizId u : String}
    {rs : List SubmittedResponse} {t : ℕ} {res : List ResponseResult} {db1 : DB}
    (h : submitResponses db quizId u rs t = .ok (res, db1)) :
    ∃ news,
      db1 = { db with attempts := db.attempts ++ news } ∧
      List.Forall₂ (resultMatches (quizAnswerKeys db quizId)) rs res ∧
      (∀ a ∈ news, a.quizId = quizId ∧ a.usernameNorm = u ∧
        a.submittedAtUnix = t ∧
        alookup a.questionId (quizAnswerKeys db quizId) ≠ none) ∧
      news.length = newAnswersOf res ∧
      (news.map (fun a => a.score)).sum = scoreDeltaOf res := by
  unfold submitResponses at h
  by_cases hkeys : (quizAnswerKeys db quizId).isEmpty = true
  · rw [if_pos hkeys] at h
    simp at h
  · rw [if_neg hkeys] at h
    obtain ⟨res2, news, heq, hmatch, hnews, hlen, hsum⟩ :=
      submitFold_spec quizId u t (quizAnswerKeys db quizId) rs [] db.attempts
    rw [heq] at h
    simp only [Except.ok.injEq, Prod.mk.injEq] at h
    obtain ⟨hres, hdb⟩ := h
    refine ⟨news, ?_, ?_, hnews, ?_, ?_⟩
    · rw [← hdb]
    · rw [← hres]; simpa using hmatch
    · rw [← hres]; simpa using hlen
    · rw [← hres]; simpa using hsum

/-! ## Incremental repair refines re-aggregation -/

theorem get?_some_lt {α : Type} {l : List α} {i : ℕ} {e : α}
    (h : l.get? i = some e) : i < l.length := by
  by_contra hc
  rw [get?_none_of_length_le (by omega)] at h
  simp at h

theorem get?_some_mem {α : Type} {l : List α} {i : ℕ} {e : α}
    (h : l.get? i = some e) : e ∈ l := by
  rw [list_split_at_get l i e h]
  simp

theorem userAttempts_nil_of_not_mem {atts : List Attempt} {q u : String}
    (hu : u ∉ usersOf atts q) : userAttempts atts q u = [] := by
  unfold userAttempts
  rw [List.filter_eq_nil_iff]
  intro a ha
  intro hc
  simp at hc
  exact hu (mem_usersOf.mpr ⟨a, ha, hc.1, hc.2⟩)

theorem perm_append_singleton {α : Type} (x : α) (l : List α) :
    (l ++ [x]).Perm (x :: l) := by
  have h := @List.perm_middle α x l []
  rw [List.append_nil] at h
  exact h

/-- One successful submission's worth of new rows, patched into the cached
order by `updateCachedLeaderboardAfterSubmission`, yields exactly the sorted
re-aggregation of the extended attempts — the incremental-vs-aggregate
equivalence for a single write. `t` dominates all existing timestamps (the
clock does not run backwards between a row's insert and a later cache
patch). -/
theorem update_preserves_aggregate
    {atts news : List Attempt} {q u : String} {res : List ResponseResult} {t : ℕ}
    (hnews : ∀ a ∈ news, a.quizId = q ∧ a.usernameNorm = u ∧ a.submittedAtUnix = t)
    (hlen : news.length = newAnswersOf res)
    (hsum : (news.map (fun a => a.score)).sum = scoreDeltaOf res)
    (htimes : ∀ a ∈ atts, a.submittedAtUnix ≤ t) :
    updateCachedLeaderboardEntries (sortedAggregate atts q) u res t =
      sortedAggregate (atts ++ news) q := by
  unfold updateCachedLeaderboardEntries
  by_cases hz : newAnswersOf res = 0
  · rw [if_pos hz]
    have hnil : news = [] := by
      have h0 : news.length = 0 := by rw [hlen, hz]
      simpa using h0
    rw [hnil, List.append_nil]
  · rw [if_neg hz]
    have hne : news ≠ [] := by
      intro hc
      rw [hc] at hlen
      simp at hlen
      exact hz hlen.symm
    have hnewsqu : ∀ a ∈ news, a.quizId = q ∧ a.usernameNorm = u :=
      fun a ha => ⟨(hnews a ha).1, (hnews a ha).2.1⟩
    have hLsorted : (sortedAggregate atts q).Pairwise sqlLE :=
      sortedAggregate_sorted atts q
    have hLperm : (sortedAggregate atts q).Perm (aggregateEntries atts q) :=
      sortedAggregate_perm atts q
    rcases hidx : (sortedAggregate atts q).findIdx? (fun e => e.username == u)
      with _ | idx
    · -- the user has no cached entry: append and bubble from the end
      rw [hidx]
      dsimp only
      have hnotin : ∀ e ∈ sortedAggregate atts q, (e.username == u) = false :=
        findIdx?_none_spec _ _ 0 (by simpa using hidx)
      have hu : u ∉ usersOf atts q := by
        intro hu
        have hmem : entryFor atts q u ∈ aggregateEntries atts q :=
          List.mem_map.mpr ⟨u, hu, rfl⟩
        have hmemL : entryFor atts q u ∈ sortedAggregate atts q :=
          hLperm.symm.subset hmem
        have hfalse := hnotin _ hmemL
        rw [entryFor_username] at hfalse
        simp at hfalse
      set L := sortedAggregate atts q with hLdef
      set x0 : LeaderboardEntry :=
        ⟨u, scoreDeltaOf res, newAnswersOf res, t⟩ with hx0def
      have hx0 : x0 = entryFor (atts ++ news) q u := by
        rw [hx0def, entryFor_append_u hnews hne htimes]
        unfold entryFor
        rw [userAttempts_nil_of_not_mem hu]
        simp [hsum, hlen]
      have hbperm : (bubbleLeaderboard (L ++ [x0]) L.length).Perm (x0 :: L) :=
        (bubbleLeaderboard_perm2 L x0 []).trans (perm_append_singleton x0 L)
      have hbsorted : (bubbleLeaderboard (L ++ [x0]) L.length).Pairwise sqlLE :=
        bubbleLeaderboard_sorted2 L x0 [] (by simpa using hLsorted)
      have hchain : (aggregateEntries (atts ++ news) q).Perm (x0 :: L) := by
        have h1 : (usersOf (atts ++ news) q).Perm (u :: usersOf atts q) :=
          usersOf_append_perm_of_not_mem hnewsqu hne hu
        have h2 := h1.map (entryFor (atts ++ news) q)
        have h3 : (usersOf atts q).map (entryFor (atts ++ news) q) =
            (usersOf atts q).map (entryFor atts q) := by
          apply List.map_congr_left
          intro w hw
          refine entryFor_append_other (fun a ha => (hnews a ha).2.1) ?_
          intro hc
          rw [hc] at hw
          exact hu hw
        rw [List.map_cons, h3, ← hx0] at h2
        exact h2.trans (List.Perm.cons x0 hLperm.symm)
      refine sorted_perm_eq_of_nodup_usernames ?_ hbsorted
        (sortedAggregate_sorted _ _) ?_
      · exact hbperm.trans
          (hchain.symm.trans (sortedAggregate_perm (atts ++ news) q).symm)
      · have h3 := (hbperm.trans hchain.symm).map (fun e => e.username)
        rw [aggregate_map_username] at h3
        exact h3.nodup_iff.mpr (usersOf_nodup _ _)
    · -- the user has a cached entry at idx: patch in place and bubble
      rw [hidx]
      dsimp only
      obtain ⟨e, hget, hpe⟩ := findIdx?_some_get _ _ idx hidx
      have heu : e.username = u := by simpa using hpe
      have hmemAgg : e ∈ aggregateEntries atts q :=
        hLperm.subset (get?_some_mem hget)
      obtain ⟨v, hv, hev⟩ := List.mem_map.mp hmemAgg
      have hvu : v = u := by
        rw [← heu, ← hev, entryFor_username]
      have hu : u ∈ usersOf atts q := hvu ▸ hv
      have he2 : e = entryFor atts q u := by
        rw [← hev, hvu]
      have hidxlt : idx < (sortedAggregate atts q).length := get?_some_lt hget
      rw [hget]
      dsimp only
      set L := sortedAggregate atts q with hLdef
      set x : LeaderboardEntry :=
        { username := e.username, totalScore := e.totalScore + scoreDeltaOf res,
          answeredCount := e.answeredCount + newAnswersOf res,
          lastSubmissionAt := t } with hxdef
      have hx : x = entryFor (atts ++ news) q u := by
        rw [hxdef, entryFor_append_u hnews hne htimes, he2, hsum, hlen,
          entryFor_username]
      have hsplit : L = L.take idx ++ e :: L.drop (idx + 1) :=
        list_split_at_get L idx e hget
      have htklen : (L.take idx).length = idx := by
        rw [List.length_take]
        omega
      have hsetL : L.set idx x = L.take idx ++ x :: L.drop (idx + 1) := by
        conv =>
          lhs
          rw [hsplit]
        rw [List.set_append, if_neg (by omega), htklen]
        simp
      rw [hsetL]
      have hpairs : (L.take idx ++ L.drop (idx + 1)).Pairwise sqlLE := by
        have hsub : (L.take idx ++ L.drop (idx + 1)).Sublist L := by
          conv =>
            rhs
            rw [hsplit]
          exact List.Sublist.append_left (List.sublist_cons_self _ _) _
        exact List.Pairwise.sublist hsub hLsorted
      have hbperm0 := bubbleLeaderboard_perm2 (L.take idx) x (L.drop (idx + 1))
      rw [htklen] at hbperm0
      have hbperm : (bubbleLeaderboard (L.take idx ++ x :: L.drop (idx + 1))
          idx).Perm (x :: (L.take idx ++ L.drop (idx + 1))) :=
        hbperm0.trans List.perm_middle
      have hbsorted0 := bubbleLeaderboard_sorted2 (L.take idx) x
        (L.drop (idx + 1)) hpairs
      rw [htklen] at hbsorted0
      have hbsorted := hbsorted0
      have herase : (usersOf atts q).Perm (u :: (usersOf atts q).erase u) :=
        List.perm_cons_erase hu
      have hchain : (aggregateEntries (atts ++ news) q).Perm
          (x :: (L.take idx ++ L.drop (idx + 1))) := by
        have h1 : (usersOf (atts ++ news) q).Perm (usersOf atts q) :=
          usersOf_append_perm_of_mem hnewsqu hu
        have h2 := (h1.trans herase).map (entryFor (atts ++ news) q)
        have h3 : ((usersOf atts q).erase u).map (entryFor (atts ++ news) q) =
            ((usersOf atts q).erase u).map (entryFor atts q) := by
          apply List.map_congr_left
          intro w hw
          refine entryFor_append_other (fun a ha => (hnews a ha).2.1) ?_
          exact ((usersOf_nodup atts q).mem_erase_iff.mp hw).1
        rw [List.map_cons, h3, ← hx] at h2
        have hold : (aggregateEntries atts q).Perm
            (e :: ((usersOf atts q).erase u).map (entryFor atts q)) := by
          have h4 := herase.map (entryFor atts q)
          rw [List.map_cons, ← he2] at h4
          exact h4
        have hLsplitPerm : L.Perm (e :: (L.take idx ++ L.drop (idx + 1))) := by
          conv =>
            lhs
            rw [hsplit]
          exact List.perm_middle
        have htail : (L.take idx ++ L.drop (idx + 1)).Perm
            (((usersOf atts q).erase u).map (entryFor atts q)) :=
          ((hLsplitPerm.symm.trans hLperm).trans hold).cons_inv
        exact h2.trans (List.Perm.cons x htail.symm)
      refine sorted_perm_eq_of_nodup_usernames ?_ hbsorted
        (sortedAggregate_sorted _ _) ?_
      · exact hbperm.trans
          (hchain.symm.trans (sortedAggregate_perm (atts ++ news) q).symm)
      · have h3 := (hbperm.trans hchain.symm).map (fun e => e.username)
        rw [aggregate_map_username] at h3
        exact h3.nodup_iff.mpr (usersOf_nodup _ _)

/-! ## The orchestrator trace and the cache-consistency invariant (§4.5) -/

theorem dbTimesLE_mono {db : DB} {t1 t2 : ℕ} (h : dbTimesLE db t1)
    (hle : t1 ≤ t2) : dbTimesLE db t2 :=
  fun a ha => le_trans (h a ha) hle

/-- `EnsureQuiz` with `createIfMissing = false` only ever touches the
metadata cache. -/
theorem ensureQuiz_frame (st : SState) (quizId : String) (now : ℕ) :
    (ensureQuiz none st quizId false 0 now).2.1.db = st.db ∧
    (ensureQuiz none st quizId false 0 now).2.1.leaderboardCache =
      st.leaderboardCache ∧
    (ensureQuiz none st quizId false 0 now).2.1.attemptScoresCache =
      st.attemptScoresCache ∧
    (ensureQuiz none st quizId false 0 now).2.1.quizQuestionsCache =
      st.quizQuestionsCache := by
  unfold ensureQuiz
  by_cases h1 : String.mk (trimSpace quizId.data) = ""
  · rw [if_pos h1]
    exact ⟨rfl, rfl, rfl, rfl⟩
  · rw [if_neg h1]
    dsimp only
    rcases h2 : alookup (String.mk (trimSpace quizId.data)) st.quizMetaCache
      with _ | md
    · dsimp only
      rcases h3 : getQuizMetadata st.db (String.mk (trimSpace quizId.data))
        with e | md2
      · dsimp only
        by_cases h4 : e ≠ StoreErr.quizNotFound
        · rw [if_pos h4]
          exact ⟨rfl, rfl, rfl, rfl⟩
        · rw [if_neg h4]
          rw [if_pos (by simp)]
          exact ⟨rfl, rfl, rfl, rfl⟩
      · exact ⟨rfl, rfl, rfl, rfl⟩
    · exact ⟨rfl, rfl, rfl, rfl⟩

theorem serviceUpdateAttemptScores_frame (st : SState) (q u : String)
    (res : List ResponseResult) :
    (serviceUpdateAttemptScores st q u res).db = st.db ∧
    (serviceUpdateAttemptScores st q u res).leaderboardCache =
      st.leaderboardCache := by
  unfold serviceUpdateAttemptScores
  rcases h : alookup (attemptScoresCacheKey q u) st.attemptScoresCache with _ | sc
  · exact ⟨rfl, rfl⟩
  · exact ⟨rfl, rfl⟩

theorem sortedAggregate_append_other {atts news : List Attempt}
    {quizId q2 : String} (hnews : ∀ a ∈ news, a.quizId = quizId)
    (hq : q2 ≠ quizId) :
    sortedAggregate (atts ++ news) q2 = sortedAggregate atts q2 := by
  unfold sortedAggregate
  rw [aggregate_append_other_quiz hnews hq]

/-- A submission processed through the orchestrator keeps every
materialized cached leaderboard equal to the sorted aggregation. -/
theorem serviceSubmit_preserves (st : SState) (q u : String)
    (rs : List SubmittedResponse) (t : ℕ)
    (hinv : lbInvariant st) (ht : dbTimesLE st.db t) :
    lbInvariant (serviceSubmitResponses st q u rs t).2.1 ∧
    dbTimesLE (serviceSubmitResponses st q u rs t).2.1.db t := by
  unfold serviceSubmitResponses
  rcases he : ensureQuiz none st q false 0 t with ⟨r1, st1, c1⟩
  have hframe := ensureQuiz_frame st q t
  rw [he] at hframe
  obtain ⟨hdb1, hlb1, _, _⟩ := hframe
  dsimp only at hdb1 hlb1
  have hinv1 : lbInvariant st1 := by
    intro q2 e2 hl
    rw [hlb1] at hl
    rw [hdb1]
    exact hinv q2 e2 hl
  have ht1 : dbTimesLE st1.db t := by rw [hdb1]; exact ht
  rcases r1 with e | metadata
  · exact ⟨hinv1, ht1⟩
  · dsimp only
    rcases hn : normalizeUsername u with e | un
    · exact ⟨hinv1, ht1⟩
    · dsimp only
      rcases hsub : submitResponses st1.db metadata.quizId un rs t
        with e | ⟨results, db1⟩
      · exact ⟨hinv1, ht1⟩
      · dsimp only
        obtain ⟨news, hdbnew, _, hnews, hcount, hscore⟩ :=
          submitResponses_ok_spec hsub
        have hnews3 : ∀ a ∈ news, a.quizId = metadata.quizId ∧
            a.usernameNorm = un ∧ a.submittedAtUnix = t :=
          fun a ha => ⟨(hnews a ha).1, (hnews a ha).2.1, (hnews a ha).2.2.1⟩
        have hattempts : db1.attempts = st1.db.attempts ++ news := by
          rw [hdbnew]
        have htimes1 : ∀ a ∈ st1.db.attempts, a.submittedAtUnix ≤ t := ht1
        constructor
        · -- the leaderboard invariant after the patch
          intro q2 e2 hl
          have hframe2 := serviceUpdateAttemptScores_frame
            (serviceUpdateLeaderboard { st1 with db := db1 } metadata.quizId un
              results t) metadata.quizId un results
          rw [hframe2.2] at hl
          rw [hframe2.1]
          unfold serviceUpdateLeaderboard at hl ⊢
          rcases hmat : alookup metadata.quizId st1.leaderboardCache
            with _ | entries
          · rw [hmat] at hl
            dsimp only at hl ⊢
            have hl2 : alookup q2 st1.leaderboardCache = some e2 := hl
            have hmat1 : alookup metadata.quizId st1.leaderboardCache = none := hmat
            by_cases hq2 : q2 = metadata.quizId
            · rw [hq2] at hl2
              rw [hl2] at hmat1
              simp at hmat1
            · rw [hlb1] at hl2
              have hagg := hinv q2 e2 hl2
              rw [hattempts, hdb1,
                sortedAggregate_append_other
                  (fun a ha => (hnews3 a ha).1) hq2]
              exact hagg
          · rw [hmat] at hl
            dsimp only at hl ⊢
            by_cases hq2 : q2 = metadata.quizId
            · rw [hq2] at hl ⊢
              rw [alookup_aset_self] at hl
              have hmat1 : alookup metadata.quizId st1.leaderboardCache =
                  some entries := hmat
              rw [hlb1] at hmat1
              have hent : entries =
                  sortedAggregate st.db.attempts metadata.quizId :=
                hinv metadata.quizId entries hmat1
              rw [← hdb1] at hent
              have hupd := @update_preserves_aggregate st1.db.attempts news
                metadata.quizId un results t hnews3 hcount hscore htimes1
              rw [hattempts]
              injection hl with hl2
              rw [← hl2, hent]
              exact hupd
            · rw [alookup_aset_other hq2] at hl
              have hl2 : alookup q2 st1.leaderboardCache = some e2 := hl
              rw [hlb1] at hl2
              have hagg := hinv q2 e2 hl2
              rw [hattempts, hdb1,
                sortedAggregate_append_other
                  (fun a ha => (hnews3 a ha).1) hq2]
              exact hagg
        · -- timestamps still bounded by t
          intro a ha
          have hframe2 := serviceUpdateAttemptScores_frame
            (serviceUpdateLeaderboard { st1 with db := db1 } metadata.quizId un
              results t) metadata.quizId un results
          rw [hframe2.1] at ha
          unfold serviceUpdateLeaderboard at ha
          rcases hmat : alookup metadata.quizId st1.leaderboardCache
            with _ | entries
          · rw [hmat] at ha
            dsimp only at ha
            rw [hattempts] at ha
            rcases List.mem_append.mp ha with h | h
            · exact ht1 a h
            · rw [(hnews3 a h).2.2]
          · rw [hmat] at ha
            dsimp only at ha
            rw [hattempts] at ha
            rcases List.mem_append.mp ha with h | h
            · exact ht1 a h
            · rw [(hnews3 a h).2.2]

theorem getLeaderboard_ok_inv {db : DB} {quizId : String}
    {entries : List LeaderboardEntry}
    (h : getLeaderboard db quizId = .ok entries) :
    entries = sortedAggregate db.attempts quizId := by
  unfold getLeaderboard at h
  by_cases hq : quizExists db quizId = true
  · rw [if_pos hq] at h
    simp at h
    rw [← h]
    rfl
  · rw [if_neg hq] at h
    simp at h

/-- A leaderboard read preserves the invariant (it only materializes a quiz
with exactly the sorted aggregation) and does not touch the store. -/
theorem serviceGetLeaderboard_preserves (st : SState) (q : String) (lim : ℤ)
    (now : ℕ) (hinv : lbInvariant st) :
    lbInvariant (serviceGetLeaderboard st q lim now).2.1 ∧
    (serviceGetLeaderboard st q lim now).2.1.db = st.db := by
  unfold serviceGetLeaderboard
  rcases he : ensureQuiz none st q false 0 now with ⟨r1, st1, c1⟩
  have hframe := ensureQuiz_frame st q now
  rw [he] at hframe
  obtain ⟨hdb1, hlb1, _, _⟩ := hframe
  dsimp only at hdb1 hlb1
  have hinv1 : lbInvariant st1 := by
    intro q2 e2 hl
    rw [hlb1] at hl
    rw [hdb1]
    exact hinv q2 e2 hl
  rcases r1 with e | metadata
  · exact ⟨hinv1, hdb1⟩
  · dsimp only
    rcases hmat : alookup metadata.quizId st1.leaderboardCache with _ | entries
    · dsimp only
      rcases hread : getLeaderboard st1.db metadata.quizId with e | entries
      · exact ⟨hinv1, hdb1⟩
      · dsimp only
        refine ⟨?_, hdb1⟩
        intro q2 e2 hl
        dsimp only at hl
        by_cases hq2 : q2 = metadata.quizId
        · rw [hq2] at hl
          rw [alookup_aset_self] at hl
          injection hl with hl2
          rw [hq2, ← hl2]
          exact getLeaderboard_ok_inv hread
        · rw [alookup_aset_other hq2] at hl
          exact hinv1 q2 e2 hl
    · exact ⟨hinv1, hdb1⟩

/-- Trace theorem: from any state satisfying the invariant, any
time-coherent sequence of submissions and leaderboard reads preserves it. -/
theorem trace_invariant :
    ∀ (events : List Event) (st : SState) (t0 : ℕ),
      lbInvariant st → dbTimesLE st.db t0 → timesOK t0 events →
      lbInvariant (runEvents st events) := by
  intro events
  induction events with
  | nil => intro st t0 hinv _ _; exact hinv
  | cons e rest ih =>
    intro st t0 hinv hdb htimes
    cases e with
    | submit q u rs t =>
      obtain ⟨hle, hrest⟩ := htimes
      have hstep := serviceSubmit_preserves st q u rs t hinv
        (dbTimesLE_mono hdb hle)
      exact ih _ t hstep.1 hstep.2 hrest
    | readLeaderboard q lim t =>
      have hstep := serviceGetLeaderboard_preserves st q lim t hinv
      refine ih _ t0 hstep.1 ?_ htimes
      show dbTimesLE (serviceGetLeaderboard st q lim t).2.1.db t0
      rw [hstep.2]
      exact hdb

/-! ## Helper lemmas for the claim theorems -/

theorem normalizeLetter_lt128 {a : String} {c : Char}
    (h : normalizeLetter a = some c) : c.toNat < 128 := by
  unfold normalizeLetter at h
  rcases hm : (trimSpace a.data).map upChar with _ | ⟨d, rest⟩
  · rw [hm] at h; simp at h
  · rw [hm] at h
    rcases rest with _ | _
    · dsimp only at h
      by_cases hd : d.toNat < 128
      · rw [if_pos hd] at h
        simp at h
        rw [← h]
        exact hd
      · rw [if_neg hd] at h
        simp at h
    · simp at h

theorem letterIndex_spec {c : Char} (h : c.toNat < 128) :
    letterIndex c = if c.toNat < 65 then c.toNat + 191 else c.toNat - 65 := by
  unfold letterIndex
  by_cases h65 : c.toNat < 65
  · rw [if_pos h65]
    apply Nat.mod_eq_of_lt
    omega
  · rw [if_neg h65]
    have heq : c.toNat + 256 - 65 = 256 + (c.toNat - 65) := by omega
    rw [heq, Nat.add_mod_left]
    apply Nat.mod_eq_of_lt
    omega

theorem alookup_ne_nil {β : Type} {k : String} {v : β} {l : List (String × β)}
    (h : alookup k l = some v) : l ≠ [] := by
  intro hc
  rw [hc] at h
  simp [alookup] at h

theorem quizAnswerKeys_attempts {db : DB} {quizId : String} (x : List Attempt) :
    quizAnswerKeys { db with attempts := x } quizId = quizAnswerKeys db quizId := rfl

theorem findAttempt_append_fresh {atts : List Attempt} {q qid u : String}
    (h : findAttempt atts q qid u = none) (row : Attempt)
    (hq : row.quizId = q) (hqid : row.questionId = qid) (hu : row.usernameNorm = u) :
    findAttempt (atts ++ [row]) q qid u = some row := by
  unfold findAttempt at h ⊢
  rw [find?_append_none h]
  simp [hq, hqid, hu]

/-! ## Claim theorems -/

/-- C3: both the authoritative `ORDER BY` comparison (`sqlLE`) and the
cache's comparator (`leaderboardBefore`) order entries by total score
descending, then last submission ascending, then username ascending, and
they agree on every pair of entries: the cache's strict order is exactly
the strict part of the SQL order, and the SQL order is the cache order or
ranking-key equality. On the §8 fixture (scores alice 2, bob 2, carol 1,
dave 1; last submissions 200, 400, 500, 500) the authoritative aggregation
orders alice, bob, carol, dave, and that order is sorted under the cache
comparator. -/
theorem ranking_rule_agreement :
    (∀ a b : LeaderboardEntry, leaderboardBefore a b = true ↔
      (b.totalScore < a.totalScore ∨
        (a.totalScore = b.totalScore ∧
          (a.lastSubmissionAt < b.lastSubmissionAt ∨
            (a.lastSubmissionAt = b.lastSubmissionAt ∧
              strLt a.username b.username = true))))) ∧
    (∀ a b : LeaderboardEntry,
      (leaderboardBefore a b = true ↔ (sqlLE a b ∧ ¬ sqlLE b a)) ∧
      (sqlLE a b ↔ (leaderboardBefore a b = true ∨ rankKeyEq a b))) ∧
    ((sortedAggregate rankingAttempts "quiz-1").map (fun e => e.username) =
      ["alice", "bob", "carol", "dave"]) ∧
    (sortedAggregate rankingAttempts "quiz-1").Pairwise
      (fun a b => leaderboardBefore b a = false) := by
  refine ⟨leaderboardBefore_iff, ?_, by decide, by decide⟩
  intro a b
  constructor
  · constructor
    · intro h
      refine ⟨(sqlLE_iff a b).mpr (Or.inl h), ?_⟩
      intro hba
      rw [sqlLE_iff_not_before] at hba
      rw [h] at hba
      exact absurd hba (by simp)
    · rintro ⟨hab, hnba⟩
      rw [sqlLE_iff_not_before] at hnba
      by_cases h : leaderboardBefore a b = true
      · exact h
      · exact absurd (by simpa using h) hnba
  · exact sqlLE_iff a b

/-- C2 (amended): the first submission with a letter the Scoring Engine
grades for the question persists the graded row (score 1 for correct, 0 for
incorrect); any later submission for the same `(quiz, question, normalized
user)` leaves the stored row unchanged, returns `already_answered` carrying
the first call's persisted score when its letter is again valid for the
question, and returns `invalid_letter` (not `already_answered`) when its
letter fails validation. -/
theorem submit_first_write_wins
    (db : DB) (q u qid a1 : String) (t1 : ℕ) (key : AnswerKey)
    (c1 : Char) (s1 : Status) (sc1 : ℤ)
    (hkey : alookup qid (quizAnswerKeys db q) = some key)
    (hfresh : findAttempt db.attempts q qid u = none)
    (heval : evaluateAnswer key a1 = .graded c1 s1 sc1) :
    submitResponses db q u [⟨qid, a1⟩] t1 =
      .ok ([⟨qid, s1, none⟩],
        { db with attempts := db.attempts ++
            [⟨q, qid, u, String.mk [c1], sc1, t1⟩] }) ∧
    ((s1 = .correct ∧ sc1 = 1) ∨ (s1 = .incorrect ∧ sc1 = 0)) ∧
    ∀ (a2 : String) (t2 : ℕ),
      (∀ c2 s2 sc2, evaluateAnswer key a2 = .graded c2 s2 sc2 →
        submitResponses
            { db with attempts := db.attempts ++
                [⟨q, qid, u, String.mk [c1], sc1, t1⟩] } q u [⟨qid, a2⟩] t2 =
          .ok ([⟨qid, .alreadyAnswered, some sc1⟩],
            { db with attempts := db.attempts ++
                [⟨q, qid, u, String.mk [c1], sc1, t1⟩] })) ∧
      (evaluateAnswer key a2 = .invalidLetter →
        submitResponses
            { db with attempts := db.attempts ++
                [⟨q, qid, u, String.mk [c1], sc1, t1⟩] } q u [⟨qid, a2⟩] t2 =
          .ok ([⟨qid, .invalidLetter, none⟩],
            { db with attempts := db.attempts ++
                [⟨q, qid, u, String.mk [c1], sc1, t1⟩] })) := by
  have hkeysne : ¬ (quizAnswerKeys db q).isEmpty = true := by
    intro hc
    rw [List.isEmpty_iff] at hc
    exact alookup_ne_nil hkey hc
  refine ⟨?_, evaluate_graded_cases heval, ?_⟩
  · unfold submitResponses
    rw [if_neg hkeysne]
    rw [List.foldl_cons, List.foldl_nil]
    unfold submitStep
    rw [hkey]
    dsimp only
    rw [heval]
    dsimp only
    rw [hfresh]
    dsimp only
    rw [List.nil_append]
  · intro a2 t2
    have hkeys2 : quizAnswerKeys
        { db with attempts := db.attempts ++
            [⟨q, qid, u, String.mk [c1], sc1, t1⟩] } q = quizAnswerKeys db q := rfl
    have hfound : findAttempt
        (db.attempts ++ [⟨q, qid, u, String.mk [c1], sc1, t1⟩]) q qid u =
        some ⟨q, qid, u, String.mk [c1], sc1, t1⟩ :=
      findAttempt_append_fresh hfresh _ rfl rfl rfl
    constructor
    · intro c2 s2 sc2 heval2
      unfold submitResponses
      dsimp only
      rw [hkeys2, if_neg hkeysne]
      rw [List.foldl_cons, List.foldl_nil]
      unfold submitStep
      dsimp only
      rw [hkey]
      dsimp only
      rw [heval2]
      dsimp only
      rw [hfound]
      dsimp only
      rw [List.nil_append]
    · intro heval2
      unfold submitResponses
      dsimp only
      rw [hkeys2, if_neg hkeysne]
      rw [List.foldl_cons, List.foldl_nil]
      unfold submitStep
      dsimp only
      rw [hkey]
      dsimp only
      rw [heval2]
      dsimp only
      rw [List.nil_append]

/-- C2 witness: concrete first-write-wins run on the fixture quiz. -/
theorem submit_first_write_wins_witness :
    submitResponses fixtureDB "quiz-1" "alice" [⟨"q1", "a"⟩] 10 =
      .ok ([⟨"q1", Status.correct, none⟩],
        { fixtureDB with attempts := fixtureDB.attempts ++
            [⟨"quiz-1", "q1", "alice", String.mk ['A'], 1, 10⟩] }) ∧
    submitResponses
        { fixtureDB with attempts := fixtureDB.attempts ++
            [⟨"quiz-1", "q1", "alice", String.mk ['A'], 1, 10⟩] }
        "quiz-1" "alice" [⟨"q1", "B"⟩] 20 =
      .ok ([⟨"q1", Status.alreadyAnswered, some 1⟩],
        { fixtureDB with attempts := fixtureDB.attempts ++
            [⟨"quiz-1", "q1", "alice", String.mk ['A'], 1, 10⟩] }) := by
  have h := submit_first_write_wins fixtureDB "quiz-1" "alice" "q1" "a" 10
    ⟨0, 2⟩ 'A' .correct 1 (by decide) (by decide) (by decide)
  exact ⟨h.1, (h.2.2 "B" 20).1 'B' .incorrect 0 (by decide)⟩

/-- C2 counterexample (to the claim as stated): after alice answered `q1`,
a second submission whose letter `C` is out of range for the two-option
question returns `invalid_letter`, not `already_answered`. -/
theorem submit_second_invalid_letter_not_already :
    submitResponses fixtureDB "quiz-1" "alice" [⟨"q1", "a"⟩] 10 =
      .ok ([⟨"q1", Status.correct, none⟩], fixtureDBAfterA) ∧
    submitResponses fixtureDBAfterA "quiz-1" "alice" [⟨"q1", "C"⟩] 20 =
      .ok ([⟨"q1", Status.invalidLetter, none⟩], fixtureDBAfterA) ∧
    Status.invalidLetter ≠ Status.alreadyAnswered := by
  refine ⟨by decide, by decide, by decide⟩

/-- C4: the submission transaction rolls back on any error — whenever the
fallible store (failure oracle `fail`, consulted at every database
operation) makes `SubmitResponses` return an error, the visible attempts
state is exactly the pre-call state. -/
theorem submit_rollback_on_error
    (fail : ℕ → Bool) (db : DB) (q u : String)
    (rs : List SubmittedResponse) (t : ℕ) (e : StoreErr)
    (h : (submitResponsesF fail db q u rs t).1 = .error e) :
    (submitResponsesF fail db q u rs t).2 = db := by
  unfold submitResponsesF at h ⊢
  by_cases h0 : fail 0 = true
  · rw [if_pos h0]
  · rw [if_neg h0] at h ⊢
    by_cases h1 : fail 1 = true
    · rw [if_pos h1]
    · rw [if_neg h1] at h ⊢
      dsimp only at h ⊢
      by_cases hk : (quizAnswerKeys db q).isEmpty = true
      · rw [if_pos hk]
      · rw [if_neg hk] at h ⊢
        rcases hloop : submitLoopF fail q u t (quizAnswerKeys db q) rs 2 []
          db.attempts with e2 | ⟨res, atts, n⟩
        · dsimp only at h ⊢
        · rw [hloop] at h
          dsimp only at h ⊢
          by_cases hn : fail n = true
          · rw [if_pos hn]
          · rw [if_neg hn] at h
            simp at h

/-- C4 witness: a failure at the very first database operation leaves the
attempts unchanged. -/
theorem submit_rollback_on_error_witness :
    (submitResponsesF (fun n => n == 0) fixtureDB "quiz-1" "alice"
      [⟨"q1", "a"⟩] 9).1 = .error .storage ∧
    (submitResponsesF (fun n => n == 0) fixtureDB "quiz-1" "alice"
      [⟨"q1", "a"⟩] 9).2 = fixtureDB :=
  ⟨by decide,
   submit_rollback_on_error (fun n => n == 0) fixtureDB "quiz-1" "alice"
     [⟨"q1", "a"⟩] 9 .storage (by decide)⟩

/-- C5: a quiz id with no questions fails the whole call with
quiz-not-found (no results, no rows); for a known quiz every submitted item
receives exactly one inline result, an unknown question id yields
`invalid_question` for that item only, and rows are only ever written for
questions of the quiz — per-item statuses never abort the batch. -/
theorem submit_unknown_quiz_vs_unknown_question
    (db : DB) (q u : String) (rs : List SubmittedResponse) (t : ℕ) :
    (quizAnswerKeys db q = [] →
      submitResponses db q u rs t = .error .quizNotFound) ∧
    (quizAnswerKeys db q ≠ [] →
      ∃ res db1 news, submitResponses db q u rs t = .ok (res, db1) ∧
        res.length = rs.length ∧
        List.Forall₂ (resultMatches (quizAnswerKeys db q)) rs res ∧
        db1.attempts = db.attempts ++ news ∧
        (∀ a ∈ news, alookup a.questionId (quizAnswerKeys db q) ≠ none)) := by
  constructor
  · intro hnil
    unfold submitResponses
    rw [if_pos (by rw [List.isEmpty_iff]; exact hnil)]
  · intro hne
    obtain ⟨res, news, heq, hmatch, hnews, _, _⟩ :=
      submitFold_spec q u t (quizAnswerKeys db q) rs [] db.attempts
    refine ⟨res, { db with attempts := db.attempts ++ news }, news, ?_, ?_,
      hmatch, rfl, fun a ha => (hnews a ha).2.2.2⟩
    · unfold submitResponses
      rw [if_neg (by rw [List.isEmpty_iff]; exact hne)]
      rw [heq]
      simp
    · exact hmatch.length_eq.symm

/-- C5 witness: the empty quiz fails wholesale; the known quiz answers an
unknown question id inline. -/
theorem submit_unknown_quiz_vs_unknown_question_witness :
    submitResponses fixtureDB "missing" "alice" [⟨"q1", "a"⟩] 3 =
      .error .quizNotFound ∧
    (∃ res db1 news,
      submitResponses fixtureDB "quiz-1" "bob" [⟨"zz", "a"⟩] 5 = .ok (res, db1) ∧
      res.length = ([⟨"zz", "a"⟩] : List SubmittedResponse).length ∧
      List.Forall₂ (resultMatches (quizAnswerKeys fixtureDB "quiz-1"))
        [⟨"zz", "a"⟩] res ∧
      db1.attempts = fixtureDB.attempts ++ news ∧
      (∀ a ∈ news, alookup a.questionId (quizAnswerKeys fixtureDB "quiz-1") ≠ none)) :=
  ⟨(submit_unknown_quiz_vs_unknown_question fixtureDB "missing" "alice"
      [⟨"q1", "a"⟩] 3).1 (by decide),
   (submit_unknown_quiz_vs_unknown_question fixtureDB "quiz-1" "bob"
      [⟨"zz", "a"⟩] 5).2 (by decide)⟩

/-- C7: a committed `CreateQuiz` under an existing quiz id erases every
attempt row of that quiz id, so the attempt-score lookup is empty for every
user afterwards. -/
theorem createQuiz_overwrite_clears_attempts
    (db : DB) (metadata : QuizMetadata) (questions : List Question)
    (now : ℕ) (db1 : DB)
    (h : createQuiz db metadata questions now = .ok db1) :
    db1.attempts.filter (fun a => a.quizId == metadata.quizId) = [] ∧
    ∀ u, getAttemptScores db1 metadata.quizId u = [] := by
  unfold createQuiz at h
  by_cases hid : metadata.quizId = ""
  · rw [if_pos hid] at h
    simp at h
  · rw [if_neg hid] at h
    dsimp only at h
    rcases hloop : createQuizLoop metadata.quizId
        (if metadata.createdAtUnix = 0 then now else metadata.createdAtUnix)
        questions.enum db.questions
        (db.quizQuestions.filter (fun r => !(r.quizId == metadata.quizId)))
      with e | ⟨qs1, qq1⟩
    · rw [hloop] at h
      simp at h
    · rw [hloop] at h
      dsimp only at h
      have hdb1 : db1.attempts =
          db.attempts.filter (fun a => !(a.quizId == metadata.quizId)) := by
        rcases h2 : db1 with ⟨z1, z2, z3, z4⟩
        rw [h2] at h
        simp at h
        rw [← h.2.2.2]
      constructor
      · rw [hdb1, List.filter_eq_nil_iff]
        intro a ha
        rcases List.mem_filter.mp ha with ⟨_, hq⟩
        simp at hq
        simp [hq]
      · intro u
        unfold getAttemptScores userAttempts
        rw [hdb1]
        have hnil : (db.attempts.filter
            (fun a => !(a.quizId == metadata.quizId))).filter
            (fun a => a.quizId == metadata.quizId && a.usernameNorm == u) = [] := by
          rw [List.filter_eq_nil_iff]
          intro a ha
          rcases List.mem_filter.mp ha with ⟨_, hq⟩
          simp at hq
          simp [hq]
        rw [hnil]
        rfl

/-- C7 witness: overwriting the fixture quiz (which has six attempt rows)
leaves no attempt rows and an empty score map for alice. -/
theorem createQuiz_overwrite_clears_attempts_witness :
    ∃ db1, createQuiz overwriteDB ⟨"quiz-1", 0, 0⟩ overwriteQuestions 7 =
      .ok db1 ∧
      db1.attempts.filter (fun a => a.quizId == "quiz-1") = [] ∧
      getAttemptScores db1 "quiz-1" "alice" = [] := by
  rcases hok : createQuiz overwriteDB ⟨"quiz-1", 0, 0⟩ overwriteQuestions 7
    with e | db1
  · exfalso
    have hisok : (createQuiz overwriteDB ⟨"quiz-1", 0, 0⟩
        overwriteQuestions 7).isOk = true := by decide
    rw [hok] at hisok
    simp [Except.isOk, Except.toBool] at hisok
  · have hc := createQuiz_overwrite_clears_attempts overwriteDB
      ⟨"quiz-1", 0, 0⟩ overwriteQuestions 7 db1 hok
    exact ⟨db1, rfl, hc.1, hc.2 "alice"⟩

theorem evalStatus_cases (key : AnswerKey) (a : String) :
    evalStatus key a =
      match normalizeLetter a with
      | none => Status.invalidLetter
      | some c =>
        if key.optionCount ≤ letterIndex c then Status.invalidLetter
        else if (letterIndex c : ℤ) = key.correctIndex then Status.correct
        else Status.incorrect := by
  unfold evalStatus evaluateAnswer
  rcases normalizeLetter a with _ | c
  · rfl
  · dsimp only
    by_cases h1 : key.optionCount ≤ letterIndex c
    · rw [if_pos h1, if_pos h1]
    · rw [if_neg h1, if_neg h1]
      by_cases h2 : (letterIndex c : ℤ) = key.correctIndex
      · rw [if_pos h2, if_pos h2]
      · rw [if_neg h2, if_neg h2]

/-- C6 counterexample (to the claim as stated): on a question recorded with
240 options, the submitted answer "0" normalizes to the single character
'0', which is *below* 'A' (65), yet byte wraparound in
`int(letter[0]-'A')` maps it to index 239 < 240, so the verdict is
`incorrect`, not `invalid_letter` as the A..(A+optionCount-1) rule
requires. -/
theorem evaluate_wraparound_counterexample :
    evalStatus ⟨0, 240⟩ "0" = Status.incorrect ∧
    normalizeLetter "0" = some '0' ∧
    ¬ (65 ≤ '0'.toNat) ∧
    Status.incorrect ≠ Status.invalidLetter := by
  refine ⟨by decide, by decide, by decide, by decide⟩

/-- C6 (amended): for questions whose recorded `optionCount` is at most 191
(any realistic quiz; beyond that the byte arithmetic `int(letter[0]-'A')`
wraps), evaluation normalizes the answer by trimming and upper-casing, a
question with zero options always yields `invalid_letter`, the verdict
differs from `invalid_letter` exactly when the normalized answer is one
character in A..(A+optionCount-1), and it is `correct` exactly when that
character's zero-based index equals `correct_index`; the concrete 2-option
boundary cases behave as specified. -/
theorem answer_validation_range (key : AnswerKey) (a : String)
    (hn : key.optionCount ≤ 191) :
    (key.optionCount = 0 → evalStatus key a = Status.invalidLetter) ∧
    (evalStatus key a ≠ Status.invalidLetter ↔
      ∃ c, normalizeLetter a = some c ∧ 65 ≤ c.toNat ∧
        c.toNat < 65 + key.optionCount) ∧
    (evalStatus key a = Status.correct ↔
      ∃ c, normalizeLetter a = some c ∧ 65 ≤ c.toNat ∧
        c.toNat < 65 + key.optionCount ∧
        (c.toNat : ℤ) - 65 = key.correctIndex) ∧
    (evalStatus ⟨0, 2⟩ " a " = Status.correct ∧
      evalStatus ⟨0, 2⟩ "b" = Status.incorrect ∧
      evalStatus ⟨0, 2⟩ "B" = Status.incorrect ∧
      evalStatus ⟨0, 2⟩ "C" = Status.invalidLetter ∧
      evalStatus ⟨0, 2⟩ "AB" = Status.invalidLetter ∧
      evalStatus ⟨0, 2⟩ "" = Status.invalidLetter ∧
      evalStatus ⟨0, 2⟩ "  " = Status.invalidLetter) := by
  refine ⟨?_, ?_, ?_, by decide, by decide, by decide, by decide, by decide,
    by decide, by decide⟩
  · intro hz
    rw [evalStatus_cases]
    rcases hm : normalizeLetter a with _ | c
    · rfl
    · dsimp only
      rw [hz, if_pos (Nat.zero_le _)]
  · rcases hm : normalizeLetter a with _ | c
    · rw [evalStatus_cases, hm]
      dsimp only
      simp
    · have hc128 := normalizeLetter_lt128 hm
      rw [evalStatus_cases, hm]
      dsimp only
      rw [letterIndex_spec hc128]
      by_cases h65 : 65 ≤ c.toNat
      · rw [if_neg (by omega : ¬ c.toNat < 65)]
        by_cases hin : c.toNat < 65 + key.optionCount
        · rw [if_neg (by omega : ¬ key.optionCount ≤ c.toNat - 65)]
          constructor
          · intro _
            exact ⟨c, rfl, h65, hin⟩
          · intro _
            by_cases hci : ((c.toNat - 65 : ℕ) : ℤ) = key.correctIndex
            · rw [if_pos hci]
              decide
            · rw [if_neg hci]
              decide
        · rw [if_pos (by omega : key.optionCount ≤ c.toNat - 65)]
          constructor
          · intro h
            exact absurd rfl h
          · rintro ⟨c2, hc2, h1, h2⟩
            injection hc2 with hc2
            rw [← hc2] at h2
            omega
      · rw [if_pos (by omega : c.toNat < 65)]
        rw [if_pos (by omega : key.optionCount ≤ c.toNat + 191)]
        constructor
        · intro h
          exact absurd rfl h
        · rintro ⟨c2, hc2, h1, h2⟩
          injection hc2 with hc2
          rw [← hc2] at h1
          omega
  · rcases hm : normalizeLetter a with _ | c
    · rw [evalStatus_cases, hm]
      dsimp only
      constructor
      · intro h
        exact absurd h (by decide)
      · rintro ⟨c2, hc2, h1, h2⟩
        exact absurd hc2 (by simp)
    · have hc128 := normalizeLetter_lt128 hm
      rw [evalStatus_cases, hm]
      dsimp only
      rw [letterIndex_spec hc128]
      by_cases h65 : 65 ≤ c.toNat
      · rw [if_neg (by omega : ¬ c.toNat < 65)]
        by_cases hin : c.toNat < 65 + key.optionCount
        · rw [if_neg (by omega : ¬ key.optionCount ≤ c.toNat - 65)]
          rw [(by omega : ((c.toNat - 65 : ℕ) : ℤ) = (c.toNat : ℤ) - 65)]
          by_cases hci : (c.toNat : ℤ) - 65 = key.correctIndex
          · rw [if_pos hci]
            constructor
            · intro _
              exact ⟨c, rfl, h65, hin, hci⟩
            · intro _
              rfl
          · rw [if_neg hci]
            constructor
            · intro h
              exact absurd h (by decide)
            · rintro ⟨c2, hc2, h1, h2, h3⟩
              injection hc2 with hc2
              rw [← hc2] at h3
              exact absurd h3 hci
        · rw [if_pos (by omega : key.optionCount ≤ c.toNat - 65)]
          constructor
          · intro h
            exact absurd h (by decide)
          · rintro ⟨c2, hc2, h1, h2, h3⟩
            injection hc2 with hc2
            rw [← hc2] at h2
            omega
      · rw [if_pos (by omega : c.toNat < 65)]
        rw [if_pos (by omega : key.optionCount ≤ c.toNat + 191)]
        constructor
        · intro h
          exact absurd h (by decide)
        · rintro ⟨c2, hc2, h1, h2, h3⟩
          injection hc2 with hc2
          rw [← hc2] at h1
          omega

/-- C6 witness: the amended range rule at the concrete 2-option question
and the answer " a ". -/
theorem answer_validation_range_witness :
    (2 ≤ 191) ∧
    (evalStatus ⟨0, 2⟩ " a " ≠ Status.invalidLetter ↔
      ∃ c, normalizeLetter " a " = some c ∧ 65 ≤ c.toNat ∧ c.toNat < 65 + 2) :=
  ⟨by decide, (answer_validation_range ⟨0, 2⟩ " a " (by decide)).2.1⟩

/-- C9: the service resolves usernames only through `normalizeUsername`
(trim + lower-case), so any two username spellings with the same normalized
form are interchangeable in submissions and attempt-score reads; concretely,
submitting as "Alice" and then as " ALICE " to the same question yields
`already_answered` with the first call's score on the second call. -/
theorem username_normalization_insensitive :
    (∀ (st : SState) (q u1 u2 : String) (rs : List SubmittedResponse) (t : ℕ),
      normalizeUsername u1 = normalizeUsername u2 →
        serviceSubmitResponses st q u1 rs t = serviceSubmitResponses st q u2 rs t) ∧
    (∀ (st : SState) (q u1 u2 : String) (t : ℕ),
      normalizeUsername u1 = normalizeUsername u2 →
        serviceGetAttemptScores st q u1 t = serviceGetAttemptScores st q u2 t) ∧
    normalizeUsername "Alice" = normalizeUsername " ALICE " ∧
    (serviceSubmitResponses
        (serviceSubmitResponses fixtureState "quiz-1" "Alice" [⟨"q1", "a"⟩] 10).2.1
        "quiz-1" " ALICE " [⟨"q1", "b"⟩] 20).1 =
      .ok [⟨"q1", Status.alreadyAnswered, some 1⟩] := by
  refine ⟨?_, ?_, by decide, by decide⟩
  · intro st q u1 u2 rs t h
    unfold serviceSubmitResponses
    rw [h]
  · intro st q u1 u2 t h
    unfold serviceGetAttemptScores
    rw [h]

theorem dropWhile_idem {α : Type} (p : α → Bool) (l : List α) :
    (l.dropWhile p).dropWhile p = l.dropWhile p := by
  induction l with
  | nil => rfl
  | cons a t ih =>
    by_cases h : p a = true
    · simp [List.dropWhile_cons, h, ih]
    · simp [List.dropWhile_cons, h]

theorem dropWhile_prefix_self {α : Type} (p : α → Bool) {l m : List α}
    (hpre : l <+: m) (hm : m.dropWhile p = m) : l.dropWhile p = l := by
  rcases l with _ | ⟨a, l2⟩
  · rfl
  · rcases hpre with ⟨t, ht⟩
    rw [← ht] at hm
    rw [List.cons_append, List.dropWhile_cons] at hm
    by_cases h : p a = true
    · rw [if_pos h] at hm
      have hlen := ((List.dropWhile_suffix (l := l2 ++ t) p).sublist).length_le
      rw [hm] at hlen
      simp at hlen
    · rw [List.dropWhile_cons, if_neg h]

theorem trimSpace_idem (s : List Char) : trimSpace (trimSpace s) = trimSpace s := by
  have hD : ((s.dropWhile isGoSpace).dropWhile isGoSpace) = s.dropWhile isGoSpace := by
    have h := dropWhile_idem isGoSpace s
    exact h
  have hsuf : (s.dropWhile isGoSpace).reverse.dropWhile isGoSpace <:+
      (s.dropWhile isGoSpace).reverse := List.dropWhile_suffix _
  have hpre : ((s.dropWhile isGoSpace).reverse.dropWhile isGoSpace).reverse <+:
      s.dropWhile isGoSpace := by
    have h := List.reverse_prefix.mpr hsuf
    rw [List.reverse_reverse] at h
    exact h
  have hT := dropWhile_prefix_self isGoSpace hpre hD
  unfold trimSpace
  rw [hT, List.reverse_reverse, dropWhile_idem]

theorem ensureQuiz_trim (fetcher : Option (ℤ → Except StoreErr (List Question)))
    (st : SState) (quizId : String) (createIfMissing : Bool)
    (questionCount : ℤ) (now : ℕ) :
    ensureQuiz fetcher st (String.mk (trimSpace quizId.data)) createIfMissing
        questionCount now =
      ensureQuiz fetcher st quizId createIfMissing questionCount now := by
  unfold ensureQuiz
  dsimp only
  rw [trimSpace_idem]

theorem ensureQuiz_ws (fetcher : Option (ℤ → Except StoreErr (List Question)))
    (st : SState) (quizId : String) (createIfMissing : Bool)
    (questionCount : ℤ) (now : ℕ) (hws : trimSpace quizId.data = []) :
    ensureQuiz fetcher st quizId createIfMissing questionCount now =
      (.error .quizNotFound, st, Counts.zero) := by
  unfold ensureQuiz
  dsimp only
  rw [hws]
  rw [if_pos (by decide)]

/-- C10 counterexample (to the claim as stated): quiz ids are *not*
uniformly trimmed before cache lookups — `GetQuizQuestions` consults its
caches with the raw id, so with quiz-1's metadata and questions warm in the
caches, asking for " quiz-1 " misses them and performs a durable question
read, while asking for "quiz-1" touches no durable store at all. -/
theorem raw_quizid_cache_counterexample :
    (serviceGetQuizQuestions none warmState " quiz-1 " false 0 5).2.2.questionReads = 1 ∧
    Counts.reads (serviceGetQuizQuestions none warmState "quiz-1" false 0 5).2.2 = 0 := by
  refine ⟨by decide, by decide⟩

/-- C10 (amended): a quiz id that is empty or all whitespace fails every
service operation with quiz-not-found, leaving the state untouched and
performing no durable-store call, even with createIfMissing set (for
`GetQuizQuestions` provided the raw id is not itself a cache key); and
`EnsureQuiz`, `SubmitResponses`, `GetLeaderboard` and `GetAttemptScores`
are invariant under trimming the quiz id — only `GetQuizQuestions`'s
raw-id cache probe is not. -/
theorem quizid_trim_normalization
    (fetcher : Option (ℤ → Except StoreErr (List Question)))
    (st : SState) (quizId u : String) (createIfMissing : Bool)
    (questionCount limit : ℤ) (rs : List SubmittedResponse) (t : ℕ)
    (hws : trimSpace quizId.data = [])
    (hmiss : alookup quizId st.quizMetaCache = none) :
    ensureQuiz fetcher st quizId createIfMissing questionCount t =
      (.error .quizNotFound, st, Counts.zero) ∧
    serviceGetQuizQuestions fetcher st quizId createIfMissing questionCount t =
      (.error .quizNotFound, st, Counts.zero) ∧
    serviceSubmitResponses st quizId u rs t =
      (.error .quizNotFound, st, Counts.zero) ∧
    serviceGetLeaderboard st quizId limit t =
      (.error .quizNotFound, st, Counts.zero) ∧
    serviceGetAttemptScores st quizId u t =
      (.error .quizNotFound, st, Counts.zero) ∧
    ∀ quizId2 : String,
      ensureQuiz fetcher st (String.mk (trimSpace quizId2.data)) createIfMissing
          questionCount t =
        ensureQuiz fetcher st quizId2 createIfMissing questionCount t ∧
      serviceSubmitResponses st (String.mk (trimSpace quizId2.data)) u rs t =
        serviceSubmitResponses st quizId2 u rs t ∧
      serviceGetLeaderboard st (String.mk (trimSpace quizId2.data)) limit t =
        serviceGetLeaderboard st quizId2 limit t ∧
      serviceGetAttemptScores st (String.mk (trimSpace quizId2.data)) u t =
        serviceGetAttemptScores st quizId2 u t := by
  have hens := ensureQuiz_ws fetcher st quizId createIfMissing questionCount t hws
  have hens0 := ensureQuiz_ws none st quizId false 0 t hws
  refine ⟨hens, ?_, ?_, ?_, ?_, ?_⟩
  · unfold serviceGetQuizQuestions
    rw [hmiss]
    dsimp only
    rw [hens]
  · unfold serviceSubmitResponses
    rw [hens0]
  · unfold serviceGetLeaderboard
    rw [hens0]
  · unfold serviceGetAttemptScores
    rw [hens0]
  · intro quizId2
    refine ⟨ensureQuiz_trim fetcher st quizId2 createIfMissing questionCount t,
      ?_, ?_, ?_⟩
    · unfold serviceSubmitResponses
      rw [ensureQuiz_trim]
    · unfold serviceGetLeaderboard
      rw [ensureQuiz_trim]
    · unfold serviceGetAttemptScores
      rw [ensureQuiz_trim]

/-- C10 witness: a whitespace-only quiz id against the warm fixture
service. -/
theorem quizid_trim_normalization_witness :
    trimSpace (String.data "  ") = [] ∧
    alookup "  " warmState.quizMetaCache = none ∧
    serviceGetQuizQuestions none warmState "  " true 2 7 =
      (.error .quizNotFound, warmState, Counts.zero) :=
  ⟨by decide, by decide,
   (quizid_trim_normalization none warmState "  " "alice" true 2 5 [] 7
     (by decide) (by decide)).2.1⟩

theorem getQuizMetadata_quizId {db : DB} {q : String} {md : QuizMetadata}
    (h : getQuizMetadata db q = .ok md) : md.quizId = q := by
  unfold getQuizMetadata at h
  rcases hf : db.quizzes.find? (fun r => r.quizId == q) with _ | row
  · rw [hf] at h
    simp at h
  · rw [hf] at h
    have hp := List.find?_some hf
    simp at hp
    injection h with h
    rw [← h]
    exact hp

theorem quizExists_of_metadata {db : DB} {q : String} {md : QuizMetadata}
    (h : getQuizMetadata db q = .ok md) : quizExists db q = true := by
  unfold getQuizMetadata at h
  unfold quizExists
  rcases hf : db.quizzes.find? (fun r => r.quizId == q) with _ | row
  · rw [hf] at h
    simp at h
  · rw [hf]
    rfl

theorem getQuizQuestionRows_ok {db : DB} {q : String}
    (hex : quizExists db q = true) :
    ∃ qs, getQuizQuestionRows db q = .ok qs := by
  unfold getQuizQuestionRows
  dsimp only
  split
  · rename_i hcond
    exact absurd hex hcond.2
  · exact ⟨_, rfl⟩

theorem ensureQuiz_cold (fetcher : Option (ℤ → Except StoreErr (List Question)))
    (st : SState) (q : String) (createIfMissing : Bool) (questionCount : ℤ)
    (t : ℕ) {md : QuizMetadata}
    (htrim : String.mk (trimSpace q.data) = q) (hne : q ≠ "")
    (hm1 : alookup q st.quizMetaCache = none)
    (hmd : getQuizMetadata st.db q = .ok md) :
    ensureQuiz fetcher st q createIfMissing questionCount t =
      (.ok md, { st with quizMetaCache := aset q md st.quizMetaCache },
       ⟨1, 0, 0, 0, 0, 0, 0⟩) := by
  unfold ensureQuiz
  dsimp only
  rw [htrim, if_neg hne, hm1]
  dsimp only
  rw [hmd]
  dsimp only
  rw [getQuizMetadata_quizId hmd]

theorem ensureQuiz_hit (fetcher : Option (ℤ → Except StoreErr (List Question)))
    (st : SState) (q : String) (createIfMissing : Bool) (questionCount : ℤ)
    (t : ℕ) {md : QuizMetadata}
    (htrim : String.mk (trimSpace q.data) = q) (hne : q ≠ "")
    (hhit : alookup q st.quizMetaCache = some md) :
    ensureQuiz fetcher st q createIfMissing questionCount t =
      (.ok md, st, Counts.zero) := by
  unfold ensureQuiz
  dsimp only
  rw [htrim, if_neg hne, hhit]

/-- C8 counterexample (to the claim as stated): the very first cold read of
a quiz's questions performs two durable-store reads, not one — the metadata
lookup inside `EnsureQuiz` plus the question-rows query. -/
theorem first_read_double_counterexample :
    Counts.reads (serviceGetQuizQuestions none fixtureState "quiz-1" false 0 5).2.2 = 2 ∧
    (serviceGetQuizQuestions none fixtureState "quiz-1" false 0 5).2.2.metaReads = 1 ∧
    (serviceGetQuizQuestions none fixtureState "quiz-1" false 0 5).2.2.questionReads = 1 := by
  refine ⟨by decide, by decide, by decide⟩

/-- C8 (amended): with all caches cold for a stored quiz, the first call of
each read path performs exactly the listed durable reads (metadata: one;
questions: one metadata + one question read; leaderboard: one metadata +
one leaderboard read; attempt scores: one metadata + one attempt-score
read), and an identical second call is served entirely from the caches —
zero durable-store reads and an unchanged state. -/
theorem read_paths_cache_counts
    (st : SState) (q u un : String) (md : QuizMetadata) (limit : ℤ) (t : ℕ)
    (htrim : String.mk (trimSpace q.data) = q) (hne : q ≠ "")
    (hm1 : alookup q st.quizMetaCache = none)
    (hm2 : alookup q st.quizQuestionsCache = none)
    (hm3 : alookup q st.leaderboardCache = none)
    (hmd : getQuizMetadata st.db q = .ok md)
    (hu : normalizeUsername u = .ok un)
    (hm4 : alookup (attemptScoresCacheKey q un) st.attemptScoresCache = none) :
    (∃ stM, ensureQuiz none st q false 0 t =
        (.ok md, stM, ⟨1, 0, 0, 0, 0, 0, 0⟩) ∧
      ensureQuiz none stM q false 0 t = (.ok md, stM, Counts.zero)) ∧
    (∃ qs st1, serviceGetQuizQuestions none st q false 0 t =
        (.ok (md, qs), st1, ⟨1, 1, 0, 0, 0, 0, 0⟩) ∧
      serviceGetQuizQuestions none st1 q false 0 t =
        (.ok (md, qs), st1, Counts.zero)) ∧
    (∃ entries st1, serviceGetLeaderboard st q limit t =
        (.ok (applyLeaderboardLimit entries limit), st1, ⟨1, 0, 1, 0, 0, 0, 0⟩) ∧
      serviceGetLeaderboard st1 q limit t =
        (.ok (applyLeaderboardLimit entries limit), st1, Counts.zero)) ∧
    (∃ scores st1, serviceGetAttemptScores st q u t =
        (.ok scores, st1, ⟨1, 0, 0, 1, 0, 0, 0⟩) ∧
      serviceGetAttemptScores st1 q u t = (.ok scores, st1, Counts.zero)) := by
  have hq := getQuizMetadata_quizId hmd
  have hex := quizExists_of_metadata hmd
  have hcold := ensureQuiz_cold none st q false 0 t htrim hne hm1 hmd
  refine ⟨⟨{ st with quizMetaCache := aset q md st.quizMetaCache }, hcold, ?_⟩,
    ?_, ?_, ?_⟩
  · exact ensureQuiz_hit none _ q false 0 t htrim hne
      (alookup_aset_self q md st.quizMetaCache)
  · obtain ⟨qs, hqs⟩ := getQuizQuestionRows_ok hex
    refine ⟨qs,
      { st with
        quizMetaCache := aset q md (aset q md st.quizMetaCache),
        quizQuestionsCache := aset q qs st.quizQuestionsCache }, ?_, ?_⟩
    · unfold serviceGetQuizQuestions
      rw [hm1, hm2]
      dsimp only
      rw [hcold]
      dsimp only
      rw [hq]
      rw [hqs]
      dsimp only
      rfl
    · unfold serviceGetQuizQuestions
      dsimp only
      rw [alookup_aset_self, alookup_aset_self]
  · refine ⟨sortedAggregate st.db.attempts q,
      { st with
        quizMetaCache := aset q md st.quizMetaCache,
        leaderboardCache :=
          aset q (sortedAggregate st.db.attempts q) st.leaderboardCache }, ?_, ?_⟩
    · unfold serviceGetLeaderboard
      rw [hcold]
      dsimp only
      rw [hq, hm3]
      dsimp only
      rw [getLeaderboard_ok hex]
      dsimp only
      rfl
    · unfold serviceGetLeaderboard
      rw [ensureQuiz_hit none _ q false 0 t htrim hne
        (alookup_aset_self q md st.quizMetaCache)]
      dsimp only
      rw [hq]
      rw [alookup_aset_self]
  · refine ⟨getAttemptScores st.db q un,
      { st with
        quizMetaCache := aset q md st.quizMetaCache,
        attemptScoresCache :=
          aset (attemptScoresCacheKey q un) (getAttemptScores st.db q un)
            st.attemptScoresCache }, ?_, ?_⟩
    · unfold serviceGetAttemptScores
      rw [hcold]
      dsimp only
      rw [hu]
      dsimp only
      rw [hq, hm4]
      dsimp only
      rfl
    · unfold serviceGetAttemptScores
      rw [ensureQuiz_hit none _ q false 0 t htrim hne
        (alookup_aset_self q md st.quizMetaCache)]
      dsimp only
      rw [hu]
      dsimp only
      rw [hq]
      rw [alookup_aset_self]

/-- C8 witness: the cold metadata read path on the fixture store. -/
theorem read_paths_cache_counts_witness :
    (String.mk (trimSpace (String.data "quiz-1")) = "quiz-1") ∧
    (∃ stM, ensureQuiz none fixtureState "quiz-1" false 0 11 =
        (.ok ⟨"quiz-1", 2, 5⟩, stM, ⟨1, 0, 0, 0, 0, 0, 0⟩) ∧
      ensureQuiz none stM "quiz-1" false 0 11 =
        (.ok ⟨"quiz-1", 2, 5⟩, stM, Counts.zero)) :=
  ⟨by decide,
   (read_paths_cache_counts fixtureState "quiz-1" "Alice" "alice"
     ⟨"quiz-1", 2, 5⟩ 5 11 (by decide) (by decide) (by decide) (by decide)
     (by decide) (by decide) (by decide) (by decide)).1⟩

/-- C1: along any trace of submissions and leaderboard reads processed by
the orchestrator under a monotone clock, whenever the cached leaderboard
holds a materialized entry list for a quiz, that list equals the full
aggregation of all durable attempts for the quiz sorted by the §4.3
ranking rule. -/
theorem cached_leaderboard_equals_aggregate
    (st : SState) (t0 : ℕ) (events : List Event)
    (hinv : lbInvariant st) (hdb : dbTimesLE st.db t0)
    (ht : timesOK t0 events) :
    ∀ q entries,
      alookup q (runEvents st events).leaderboardCache = some entries →
        entries = sortedAggregate (runEvents st events).db.attempts q :=
  trace_invariant events st t0 hinv hdb ht

/-- C1 witness: a concrete trace on the fixture store — a leaderboard read
that materializes the cache, then three submissions (one with an invalid
letter, one across both questions, one duplicating alice's key) — after
which the cache is populated and equals the sorted re-aggregation. -/
theorem cached_leaderboard_equals_aggregate_witness :
    lbInvariant fixtureState ∧
    dbTimesLE fixtureState.db 0 ∧
    timesOK 0 witnessEvents ∧
    (alookup "quiz-1"
      (runEvents fixtureState witnessEvents).leaderboardCache).isSome = true ∧
    ∀ entries,
      alookup "quiz-1" (runEvents fixtureState witnessEvents).leaderboardCache =
          some entries →
        entries =
          sortedAggregate (runEvents fixtureState witnessEvents).db.attempts
            "quiz-1" := by
  have hinv0 : lbInvariant fixtureState := by
    intro q entries h
    simp [fixtureState, alookup] at h
  have hdb0 : dbTimesLE fixtureState.db 0 := by
    intro a ha
    simp [fixtureState, fixtureDB] at ha
  have ht0 : timesOK 0 witnessEvents := ⟨by omega, by omega, by omega, trivial⟩
  refine ⟨hinv0, hdb0, ht0, by decide, ?_⟩
  intro entries h
  exact cached_leaderboard_equals_aggregate fixtureState 0 witnessEvents
    hinv0 hdb0 ht0 "quiz-1" entries h

end QuizApp
